import Mathlib

/-!
Verification of the ckydb storage engine (rs_ckydb implementation).

This file gives a shallow embedding of the Rust sources under
`src/implementations/rs_ckydb/src/` - the tokenized containers
(`strings.rs`, `cky_map.rs`, `cky_vector.rs`), the cache (`cache.rs`),
the store (`store.rs`), helpers (`utils.rs`), errors (`errors.rs`) and the
controller (`controller.rs`) - and proves or refutes the specification's
claims about them.  Strings are modelled as lists of characters (all data
in play is ASCII, so Rust's byte-wise operations coincide with char-wise
ones), the filesystem as an association list from file names to contents,
and the clock as explicit timestamp-string arguments.
-/

namespace Ckydb

/-- Strings are modelled as lists of characters. -/
abbrev Str := List Char

/-- Conversion from Lean string literals to the model's strings. -/
def str (s : String) : Str := s.data

/-- constants.rs: KEY_VALUE_SEPARATOR = "><?&(^#". -/
def KEY_VALUE_SEPARATOR : Str := str "><?&(^#"

/-- constants.rs: TOKEN_SEPARATOR = "$%#@*&^&". -/
def TOKEN_SEPARATOR : Str := str "$%#@*&^&"

/-- constants.rs: KEY_VALUE_SEPARATOR_LENGTH. -/
def KEY_VALUE_SEPARATOR_LENGTH : Nat := KEY_VALUE_SEPARATOR.length

/-- constants.rs: TOKEN_SEPARATOR_LENGTH. -/
def TOKEN_SEPARATOR_LENGTH : Nat := TOKEN_SEPARATOR.length

/-- Rust's byte-wise lexicographic order on strings (`<`), char-wise here. -/
def strLt : Str → Str → Bool
  | [], [] => false
  | [], _ :: _ => true
  | _ :: _, [] => false
  | a :: as, b :: bs => if a < b then true else if b < a then false else strLt as bs

/-- Rust's byte-wise lexicographic order on strings (`<=`). -/
def strLe (a b : Str) : Bool := !(strLt b a)

/-- Boolean test that `pat` starts the list `s` (Rust `str::starts_with`). -/
def isPre : Str → Str → Bool
  | [], _ => true
  | _ :: _, [] => false
  | a :: as, b :: bs => a == b && isPre as bs

/-- Boolean test that `pat` occurs inside `s` (Rust `str::contains`). -/
def hasSub (pat s : Str) : Bool :=
  (List.range (s.length + 1)).any (fun i => isPre pat (s.drop i))

/-- Rust slice indexing `s[a..b]` (total here; Rust panics out of bounds,
which never happens on the inputs our theorems touch). -/
def extract (s : Str) (a b : Nat) : Str := (s.drop a).take (b - a)

/-- Rust `String::replace_range(a..b, r)`. -/
def spliceRange (s : Str) (a b : Nat) (r : Str) : Str :=
  s.take a ++ r ++ s.drop b

/-- Rust `isize`-to-`usize` cast semantics: reduction modulo 2^64. -/
def intToUsize (z : Int) : Nat := (z % ((2 : Int) ^ 64)).toNat

/-- Splitter worker: walks the string, cutting at each leftmost occurrence
of `sep`, recording each token together with its start position.  The fuel
argument makes the recursion structural; `fuel = s.length` always
suffices. -/
def splitPosAux (sep : Str) : Nat → Str → Str → Nat → List (Str × Nat)
  | _, [], acc, pos => [(acc.reverse, pos)]
  | 0, s, acc, pos => [(acc.reverse ++ s, pos)]
  | fuel + 1, c :: rest, acc, pos =>
    if isPre sep (c :: rest) then
      (acc.reverse, pos) ::
        splitPosAux sep fuel (List.drop sep.length (c :: rest)) []
          (pos + acc.length + sep.length)
    else
      splitPosAux sep fuel rest (c :: acc) pos

/-- Rust `str::split(sep)` together with the pointer-difference start
offsets that `reload_from_str` computes for each token. -/
def splitPos (sep s : Str) : List (Str × Nat) := splitPosAux sep s.length s [] 0

/-- Rust `str::split(sep)`, tokens only. -/
def splitOnStr (sep s : Str) : List Str := (splitPos sep s).map (fun p => p.1)

/-- Boolean suffix test. -/
def endsWith (sep s : Str) : Bool := isPre sep.reverse s.reverse

/-- Worker for `trimEnd` (Rust `str::trim_end_matches`), fuel-structural. -/
def trimEndAux (sep : Str) : Nat → Str → Str
  | 0, s => s
  | fuel + 1, s =>
    if sep ≠ [] && endsWith sep s then
      trimEndAux sep fuel (s.take (s.length - sep.length))
    else s

/-- Rust `str::trim_end_matches(sep)`: strip every trailing copy of `sep`. -/
def trimEnd (sep s : Str) : Str := trimEndAux sep s.length s

/-- Serialization shape used throughout the sources: each token followed by
the token separator (the shape of `fold`ing `format!("{}{}{}", acc, item,
TOKEN_SEPARATOR)`). -/
def joinT (l : List Str) : Str :=
  l.foldl (fun acc t => acc ++ t ++ TOKEN_SEPARATOR) []

/-- Last-insertion-wins lookup, the observable behaviour of Rust's
`HashMap` under repeated `insert`. -/
def lookupLast {α : Type} : List (Str × α) → Str → Option α
  | [], _ => none
  | p :: rest, k =>
    match lookupLast rest k with
    | some v => some v
    | none => if p.1 = k then some p.2 else none

/-- Model of `HashMap::insert` on an association list: replace the binding
if present, else add it (keeps at most one binding per key). -/
def alInsert {α : Type} (l : List (Str × α)) (k : Str) (v : α) : List (Str × α) :=
  (l.filter (fun p => !(p.1 == k))) ++ [(k, v)]

/-- Model of `HashMap::remove` (the resulting map). -/
def alRemove {α : Type} (l : List (Str × α)) (k : Str) : List (Str × α) :=
  l.filter (fun p => !(p.1 == k))

/-- Decimal digit character. -/
def digitChar (d : Nat) : Char := Char.ofNat (48 + d)

/-- Decimal rendering worker, fuel-structural. -/
def natStrAux : Nat → Nat → Str
  | 0, _ => []
  | fuel + 1, n => if n < 10 then [digitChar n] else natStrAux fuel (n / 10) ++ [digitChar (n % 10)]

/-- Decimal rendering of a natural number (Rust `usize` Display). -/
def natStr (n : Nat) : Str := natStrAux (n + 1) n

/-- errors.rs: the `Error` enum. -/
inductive CkyError : Type
  | notFound (key : Str)
  | corrupted (data : Option Str)
  | alreadyRunning
  | notRunning
deriving DecidableEq, Repr

/-- errors.rs: `Display for Error`. -/
def CkyError.display : CkyError → Str
  | .notFound k => k ++ str " not found"
  | .corrupted d => str "corrupted: " ++ d.getD []
  | .alreadyRunning => str "already running"
  | .notRunning => str "not running"

/-- errors.rs: `Error::get_data`. -/
def CkyError.get_data : CkyError → Option Str
  | .notFound k => some k
  | .corrupted d => d
  | .alreadyRunning => none
  | .notRunning => none

/-- Results of fallible operations are compared with decidable equality. -/
instance {ε α : Type} [DecidableEq ε] [DecidableEq α] : DecidableEq (Except ε α) :=
  fun a b =>
    match a, b with
    | .ok x, .ok y =>
      if h : x = y then .isTrue (by rw [h]) else .isFalse (by simp [h])
    | .error x, .error y =>
      if h : x = y then .isTrue (by rw [h]) else .isFalse (by simp [h])
    | .ok _, .error _ => .isFalse (by simp)
    | .error _, .ok _ => .isFalse (by simp)

/-- I/O errors are modelled by their message string. -/
abbrev IoErr := Str

/-- errors.rs: `From<io::Error> for Error` turns any I/O error into
`CorruptedDataError`. -/
def ckyFromIo (e : IoErr) : CkyError := .corrupted (some e)

/-- strings.rs: the `TokenizedString` struct (blob plus offset table;
each entry is the key range paired with the value range). -/
structure TokenizedString where
  kv_string : Str
  offsets : List ((Nat × Nat) × (Nat × Nat))
deriving DecidableEq, Repr

instance : Inhabited TokenizedString := ⟨⟨[], []⟩⟩

namespace TokenizedString

/-- strings.rs `map()`: the key/value pairs read off the offset table, in
offset order (`HashMap` insertion order; later entries win on lookup). -/
def mapList (t : TokenizedString) : List (Str × Str) :=
  t.offsets.map (fun o =>
    (extract t.kv_string o.1.1 o.1.2, extract t.kv_string o.2.1 o.2.2))

/-- strings.rs `get`: `map()` lookup, `NotFoundError` when absent. -/
def get (t : TokenizedString) (key : Str) : Except CkyError Str :=
  match lookupLast t.mapList key with
  | some v => .ok v
  | none => .error (.notFound key)

/-- The scan both `insert` and `delete` perform: the first offset index
whose extracted key equals `key`. -/
def findKeyIdx (t : TokenizedString) (key : Str) : Option Nat :=
  t.offsets.findIdx? (fun o => extract t.kv_string o.1.1 o.1.2 == key)

/-- strings.rs `___replace_kv_string_section`: checked splice of the blob. -/
def replaceSection (t : TokenizedString) (a b : Nat) (repl : Str) :
    Except CkyError TokenizedString :=
  if b > t.kv_string.length then
    .error (.corrupted (some (natStr b ++ str " is beyond length of raw string of length "
      ++ natStr t.kv_string.length)))
  else
    .ok { t with kv_string := spliceRange t.kv_string a b repl }

/-- strings.rs `__append_key_value`. -/
def appendKeyValue (t : TokenizedString) (key value : Str) : TokenizedString :=
  let k_start := t.kv_string.length
  let k_end := k_start + key.length
  let v_start := if value = [] then k_end else k_end + KEY_VALUE_SEPARATOR_LENGTH
  let v_end := v_start + value.length
  { kv_string := t.kv_string ++ key ++ KEY_VALUE_SEPARATOR ++ value ++ TOKEN_SEPARATOR,
    offsets := t.offsets ++ [((k_start, k_end), (v_start, v_end))] }

/-- The shift `__replace_offset` applies to one offset entry (Rust `isize`
arithmetic followed by an `as usize` cast). -/
def shiftOffset (o : (Nat × Nat) × (Nat × Nat)) (delta : Int) :
    (Nat × Nat) × (Nat × Nat) :=
  ((intToUsize ((o.1.1 : Int) + delta), intToUsize ((o.1.2 : Int) + delta)),
   (intToUsize ((o.2.1 : Int) + delta), intToUsize ((o.2.2 : Int) + delta)))

/-- strings.rs `__replace_offset`: install `new` at `index` and add
`delta = old_end - new_end` to every later entry. -/
def replaceOffset (t : TokenizedString) (index : Nat)
    (new : (Nat × Nat) × (Nat × Nat)) : TokenizedString :=
  let old_end := ((t.offsets.getD index default).2).2
  let new_end := new.2.2
  let delta : Int := (old_end : Int) - (new_end : Int)
  { t with offsets := t.offsets.mapIdx (fun i o =>
      if i = index then new else if index < i then shiftOffset o delta else o) }

/-- strings.rs `__remove_offset`: drop the entry at `index` and lower every
later entry by the removed token's byte count. -/
def removeOffset (t : TokenizedString) (index : Nat) : TokenizedString :=
  let o := t.offsets.getD index default
  let delta : Int := ((o.2.2 + TOKEN_SEPARATOR_LENGTH : Nat) : Int) - (o.1.1 : Int)
  { t with offsets := (t.offsets.eraseIdx index).mapIdx (fun i e =>
      if index ≤ i then shiftOffset e (-delta) else e) }

/-- strings.rs `insert`: update in place when the scan finds the key, else
append; returns the state even on error (the blob is untouched then). -/
def insert (t : TokenizedString) (key value : Str) :
    Except CkyError TokenizedString :=
  match t.findKeyIdx key with
  | some i =>
    let o := t.offsets.getD i default
    (t.replaceSection o.2.1 o.2.2 value).map (fun t1 =>
      t1.replaceOffset i ((o.1.1, o.1.2), (o.2.1, o.2.1 + value.length)))
  | none => .ok (t.appendKeyValue key value)

/-- strings.rs `delete`: splice out the whole token and drop its offset. -/
def delete (t : TokenizedString) (key : Str) : Except CkyError TokenizedString :=
  match t.findKeyIdx key with
  | some i =>
    let o := t.offsets.getD i default
    (t.replaceSection o.1.1 (o.2.2 + TOKEN_SEPARATOR_LENGTH) []).map
      (fun t1 => t1.removeOffset i)
  | none => .error (.notFound key)

end TokenizedString

/-- cky_map.rs: the `CkyMap` struct — blob, per-key token start offsets,
and the separate inner map that `get` reads. -/
structure CkyMap where
  kv_string : Str
  offsets : List (Str × Nat)
  inner_map : List (Str × Str)
deriving DecidableEq, Repr

instance : Inhabited CkyMap := ⟨⟨[], [], []⟩⟩

namespace CkyMap

/-- cky_map.rs `___replace_kv_string_section`: checked splice. -/
def replaceSection (m : CkyMap) (a b : Nat) (r : Str) : Except CkyError CkyMap :=
  if b > m.kv_string.length then
    .error (.corrupted (some (natStr b ++ str " is beyond length of raw string of length "
      ++ natStr m.kv_string.length)))
  else
    .ok { m with kv_string := spliceRange m.kv_string a b r }

/-- cky_map.rs `get`: a pure `inner_map` lookup. -/
def get (m : CkyMap) (key : Str) : Except CkyError Str :=
  match lookupLast m.inner_map key with
  | some v => .ok v
  | none => .error (.notFound key)

/-- cky_map.rs `insert`: splice the new value over the old bytes for an
existing key (later offsets are not touched), append for a new key.
Returns the old value and the resulting state (the state reflects partial
mutation on the error paths, as in Rust). -/
def insert (m : CkyMap) (key value : Str) :
    Except CkyError (Option Str) × CkyMap :=
  let old? := lookupLast m.inner_map key
  let m1 := { m with inner_map := alInsert m.inner_map key value }
  match old? with
  | some old_value =>
    match lookupLast m.offsets key with
    | some start0 =>
      let a := start0 + key.length + KEY_VALUE_SEPARATOR_LENGTH
      let b := a + old_value.length
      match m1.replaceSection a b value with
      | .ok m2 => (.ok (some old_value), m2)
      | .error e => (.error e, m1)
    | none =>
      (.error (.corrupted (some (str "offsets and map out of sync in CkyVector"))), m1)
  | none =>
    (.ok none,
      { m1 with
          offsets := alInsert m.offsets key m.kv_string.length,
          kv_string := m.kv_string ++ key ++ KEY_VALUE_SEPARATOR ++ value ++ TOKEN_SEPARATOR })

/-- cky_map.rs `delete`:  remove from the inner map, splice the token out
of the blob, drop the offset (later offsets are not shifted). -/
def delete (m : CkyMap) (key : Str) : Except CkyError Str × CkyMap :=
  match lookupLast m.inner_map key with
  | some value =>
    let m1 := { m with inner_map := alRemove m.inner_map key }
    match lookupLast m.offsets key with
    | some a =>
      let b := a + key.length + KEY_VALUE_SEPARATOR_LENGTH + value.length
        + TOKEN_SEPARATOR_LENGTH
      match m1.replaceSection a b [] with
      | .ok m2 => (.ok value, { m2 with offsets := alRemove m2.offsets key })
      | .error e => (.error e, m1)
    | none =>
      (.error (.corrupted (some (str "offsets and map out of sync in Tokneized string"))), m1)
  | none => (.error (.notFound key), m)

/-- cky_map.rs `clear`. -/
def clear (_ : CkyMap) : CkyMap := ⟨[], [], []⟩

/-- cky_map.rs `reload_from_str`: trim trailing token separators, split
into tokens, keep those with exactly one key-value separator, recording
each kept token's start offset within the trimmed string. -/
def reload_from_str (_m : CkyMap) (content : Str) : CkyMap :=
  let base : CkyMap := { kv_string := content, offsets := [], inner_map := [] }
  let trimmed := trimEnd TOKEN_SEPARATOR content
  if trimmed = [] then base
  else
    (splitPos TOKEN_SEPARATOR trimmed).foldl (fun acc p =>
      match splitOnStr KEY_VALUE_SEPARATOR p.1 with
      | [k, v] =>
        { acc with
            offsets := alInsert acc.offsets k p.2,
            inner_map := alInsert acc.inner_map k v }
      | _ => acc) base

/-- cky_map.rs `From<String>`. -/
def fromStr (s : Str) : CkyMap := reload_from_str default s

/-- cky_map.rs `ToString`. -/
def toStr (m : CkyMap) : Str := m.kv_string

end CkyMap

/-- cky_vector.rs: the `CkyVector` struct. -/
structure CkyVector where
  k_string : Str
  inner_vector : List Str
  offsets : List Nat
deriving DecidableEq, Repr

instance : Inhabited CkyVector := ⟨⟨[], [], []⟩⟩

namespace CkyVector

/-- cky_vector.rs `push`. -/
def push (c : CkyVector) (value : Str) : CkyVector :=
  { k_string := c.k_string ++ value ++ TOKEN_SEPARATOR,
    inner_vector := c.inner_vector ++ [value],
    offsets := c.offsets ++ [c.k_string.length] }

/-- cky_vector.rs `len`. -/
def len (c : CkyVector) : Nat := c.inner_vector.length

/-- cky_vector.rs `get`. -/
def get (c : CkyVector) (i : Nat) : Option Str := c.inner_vector.get? i

/-- cky_vector.rs `replace_k_string_section`: checked splice. -/
def replaceSection (c : CkyVector) (a b : Nat) (r : Str) : Except CkyError CkyVector :=
  if b > c.k_string.length then
    .error (.corrupted (some (natStr b ++ str " is beyond length of raw string of length "
      ++ natStr c.k_string.length)))
  else
    .ok { c with k_string := spliceRange c.k_string a b r }

/-- cky_vector.rs `shift_offsets`: add `delta` to every offset from
`index` on (Rust `isize` arithmetic and `as usize` cast). -/
def shift_offsets (c : CkyVector) (index : Nat) (delta : Int) : CkyVector :=
  { c with offsets := c.offsets.mapIdx (fun i v =>
      if index ≤ i then intToUsize (Int.ofNat v + delta) else v) }

/-- cky_vector.rs `remove`: splice the token out, drop its offset, shift
the later offsets left by the removed byte count. -/
def remove (c : CkyVector) (i : Nat) : Except CkyError Str × CkyVector :=
  if i < c.inner_vector.length then
    let old_value := c.inner_vector.getD i []
    let c1 := { c with inner_vector := c.inner_vector.eraseIdx i }
    let a := c.offsets.getD i 0
    let b := a + old_value.length + TOKEN_SEPARATOR_LENGTH
    match c1.replaceSection a b [] with
    | .ok c2 =>
      let c3 := { c2 with offsets := c2.offsets.eraseIdx i }
      (.ok old_value, c3.shift_offsets i ((a : Int) - (b : Int)))
    | .error e => (.error e, c1)
  else (.error (.notFound (natStr i)), c)

/-- cky_vector.rs `reload_from_str`. -/
def reload_from_str (_ : CkyVector) (content : Str) : CkyVector :=
  let base : CkyVector := { k_string := content, inner_vector := [], offsets := [] }
  let trimmed := trimEnd TOKEN_SEPARATOR content
  if trimmed = [] then base
  else
    { base with
      inner_vector := (splitPos TOKEN_SEPARATOR trimmed).map (fun p => p.1),
      offsets := (splitPos TOKEN_SEPARATOR trimmed).map (fun p => p.2) }

/-- cky_vector.rs `From<String>`. -/
def fromStr (s : Str) : CkyVector := reload_from_str default s

/-- cky_vector.rs `ToString`. -/
def toStr (c : CkyVector) : Str := c.k_string

end CkyVector

/-- cache.rs: the `Cache` struct (`end` is a Rust keyword-adjacent field
name; spelled `end_` here). -/
structure Cache where
  data : CkyMap
  start : Str
  end_ : Str
deriving DecidableEq, Repr

namespace Cache

/-- cache.rs `Cache::new`. -/
def new (content : Str) (start end_ : Str) : Cache :=
  ⟨CkyMap.fromStr content, start, end_⟩

/-- cache.rs `Cache::new_empty`: the `start = end = "0"` sentinel. -/
def new_empty : Cache := ⟨default, str "0", str "0"⟩

/-- cache.rs `is_in_range`: `start <= key && key <= end` (both bounds
inclusive in the code). -/
def is_in_range (c : Cache) (key : Str) : Bool :=
  strLe c.start key && strLe key c.end_

/-- cache.rs `remove`: delegate to the inner `CkyMap`. -/
def remove (c : Cache) (key : Str) : Except CkyError Str × Cache :=
  let r := c.data.delete key
  (r.1, { c with data := r.2 })

/-- cache.rs `update`: delegate to the inner `CkyMap`. -/
def update (c : Cache) (key value : Str) : Except CkyError (Option Str) × Cache :=
  let r := c.data.insert key value
  (r.1, { c with data := r.2 })

/-- cache.rs `get`: delegate to the inner `CkyMap`. -/
def get (c : Cache) (key : Str) : Except CkyError Str := c.data.get key

end Cache

/-- constants.rs: INDEX_FILENAME. -/
def INDEX_FILENAME : Str := str "index.idx"

/-- constants.rs: DEL_FILENAME. -/
def DEL_FILENAME : Str := str "delete.del"

/-- The database directory, modelled as an association from file names to
contents. -/
abbrev Fs := List (Str × Str)

/-- `fs::read_to_string`: `none` models the I/O error on a missing file. -/
def fsRead (fs : Fs) (name : Str) : Option Str := lookupLast fs name

/-- `fs::write`: create or truncate-and-write. -/
def fsWrite (fs : Fs) (name content : Str) : Fs := alInsert fs name content

/-- utils.rs `append_to_file`: fails (`none`) when the file is missing,
because it opens without `create`. -/
def fsAppendF (fs : Fs) (name content : Str) : Option Fs :=
  (fsRead fs name).map (fun c => alInsert fs name (c ++ content))

/-- utils.rs `create_file_if_not_exist`. -/
def fsCreateIfAbsent (fs : Fs) (name : Str) : Fs :=
  match fsRead fs name with
  | some _ => fs
  | none => alInsert fs name []

/-- `fs::rename` onto a possibly-existing destination. -/
def fsRename (fs : Fs) (old new : Str) : Fs :=
  match fsRead fs old with
  | some c => alInsert (alRemove fs old) new c
  | none => fs

/-- utils.rs `extract_tokens_from_str`. -/
def extract_tokens_from_str (content : Str) : List Str :=
  let trimmed := trimEnd TOKEN_SEPARATOR content
  if trimmed = [] then [] else splitOnStr TOKEN_SEPARATOR trimmed

/-- utils.rs `has_any_of_prefixes`. -/
def hasAnyPre (phrase : Str) (pres : List Str) : Bool :=
  pres.any (fun p => isPre p phrase)

/-- utils.rs `delete_key_values_from_file`: drop from the file every token
that starts with `key ++ KEY_VALUE_SEPARATOR` for a listed key; `none`
models the I/O error on a missing file. -/
def delete_key_values_from_file (fs : Fs) (name : Str) (keys : List Str) :
    Option Fs :=
  (fsRead fs name).map (fun content =>
    let toks := extract_tokens_from_str content
    let pres := keys.map (fun k => k ++ KEY_VALUE_SEPARATOR)
    fsWrite fs name (joinT (toks.filter (fun t => !(hasAnyPre t pres)))))

/-- Sorted insertion, used to model `Vec::sort` on the data-file list. -/
def insSorted (x : Str) : List Str → List Str
  | [] => [x]
  | y :: r => if strLe x y then x :: y :: r else y :: insSorted x r

/-- Model of `Vec::sort` for the lexicographically ordered file names. -/
def sortStrs : List Str → List Str
  | [] => []
  | x :: r => insSorted x (sortStrs r)

/-- store.rs: the `Store` struct.  Paths are file names inside the single
database directory; `max_file_size_kb` is carried as a byte threshold. -/
structure StoreState where
  index : List (Str × Str)
  memtable : TokenizedString
  cache : Cache
  data_files : List Str
  current_log_file : Str
  fs : Fs
  max_file_size_bytes : Nat
deriving DecidableEq, Repr

namespace Store

/-- The active log's file name. -/
def logPath (s : StoreState) : Str := s.current_log_file ++ str ".log"

/-- A data segment's file name. -/
def dataPath (base : Str) : Str := base ++ str ".cky"

/-- store.rs `get_timestamped_key`: reuse the indexed timestamped key, or
mint `ts ++ "-" ++ key`, append it to the index file, and report `is_new`. -/
def get_timestamped_key (s : StoreState) (k ts : Str) :
    Except IoErr (Str × Bool) × StoreState :=
  match lookupLast s.index k with
  | some tk => (.ok (tk, false), s)
  | none =>
    let tk := ts ++ '-' :: k
    let entry := k ++ KEY_VALUE_SEPARATOR ++ tk ++ TOKEN_SEPARATOR
    match fsAppendF s.fs INDEX_FILENAME entry with
    | some fs1 => (.ok (tk, true), { s with fs := fs1 })
    | none => (.error (str "index file missing"), s)

/-- store.rs `remove_timestamped_key_for_key_if_exists`: only when the
in-memory index has the key does it also rewrite the index file. -/
def remove_timestamped_key_for_key_if_exists (s : StoreState) (k : Str) :
    Except IoErr Unit × StoreState :=
  match lookupLast s.index k with
  | some _ =>
    let s1 := { s with index := alRemove s.index k }
    match delete_key_values_from_file s1.fs INDEX_FILENAME [k] with
    | some fs1 => (.ok (), { s1 with fs := fs1 })
    | none => (.error (str "index file missing"), s1)
  | none => (.ok (), s)

/-- store.rs `roll_log_file_if_too_big`: when the log file meets the size
threshold, rename it to a `.cky` segment, reset the memtable, register the
segment, and start a fresh log named by the next timestamp. -/
def roll_log_file_if_too_big (s : StoreState) (tsRoll : Str) :
    Except IoErr Unit × StoreState :=
  match fsRead s.fs (logPath s) with
  | none => (.error (str "log file missing"), s)
  | some content =>
    if s.max_file_size_bytes ≤ content.length then
      let fs1 := fsRename s.fs (logPath s) (dataPath s.current_log_file)
      let s1 := { s with
        fs := fs1, memtable := default,
        data_files := sortStrs (s.data_files ++ [s.current_log_file]) }
      let fs2 := fsCreateIfAbsent s1.fs (tsRoll ++ str ".log")
      (.ok (), { s1 with fs := fs2, current_log_file := tsRoll })
    else (.ok (), s)

/-- store.rs `save_key_value_pair_to_memtable`: upsert into the memtable,
rewrite the log file, then run the roll check.  `writeOk` injects the
outcome of the host filesystem's write. -/
def save_key_value_pair_to_memtable (s : StoreState) (tk v tsRoll : Str)
    (writeOk : Bool) : Except IoErr Unit × StoreState :=
  match s.memtable.insert tk v with
  | .error e => (.error e.display, s)
  | .ok mt =>
    let s1 := { s with memtable := mt }
    if writeOk then
      roll_log_file_if_too_big { s1 with fs := fsWrite s1.fs (logPath s1) mt.kv_string } tsRoll
    else (.error (str "log write failed"), s1)

/-- store.rs `persist_cache_to_disk` (always succeeds in the model). -/
def persist_cache_to_disk (s : StoreState) : StoreState :=
  { s with fs := fsWrite s.fs (dataPath s.cache.start) s.cache.data.kv_string }

/-- store.rs `save_key_value_pair_to_cache`. -/
def save_key_value_pair_to_cache (s : StoreState) (tk v : Str) :
    Except IoErr Unit × StoreState :=
  match s.cache.update tk v with
  | (.error e, c1) => (.error e.display, { s with cache := c1 })
  | (.ok _, c1) => (.ok (), persist_cache_to_disk { s with cache := c1 })

/-- store.rs `get_timestamp_range_for_key`'s scan: the first adjacent pair
whose second component is strictly greater than the key. -/
def findRangePair : List Str → Str → Option (Str × Str)
  | [], _ => none
  | [_], _ => none
  | a :: b :: rest, key =>
    if strLt key b then some (a, b) else findRangePair (b :: rest) key

/-- store.rs `get_timestamp_range_for_key` over
`data_files ++ [current_log_file]`. -/
def get_timestamp_range_for_key (s : StoreState) (key : Str) :
    Option (Str × Str) :=
  findRangePair (s.data_files ++ [s.current_log_file]) key

/-- store.rs `load_cache_containing_key`: resolve the bounds, read the
segment file, and replace the cache. -/
def load_cache_containing_key (s : StoreState) (key : Str) :
    Except IoErr Unit × StoreState :=
  match get_timestamp_range_for_key s key with
  | none => (.error (str "InvalidData: " ++ key), s)
  | some (a, b) =>
    match fsRead s.fs (dataPath a) with
    | none => (.error (str "segment file missing: " ++ a), s)
    | some content => (.ok (), { s with cache := Cache.new content a b })

/-- store.rs "save_key_value_pair": route to the memtable when the key is
at least the active log's name, else to the cache-backed segment. -/
def save_key_value_pair (s : StoreState) (tk v tsRoll : Str) (writeOk : Bool) :
    Except CkyError Unit × StoreState :=
  if strLe s.current_log_file tk then
    let old? := match s.memtable.get tk with | .ok v0 => some v0 | .error _ => none
    match save_key_value_pair_to_memtable s tk v tsRoll writeOk with
    | (.ok _, s1) => (.ok (), s1)
    | (.error _, s1) => (.error (.corrupted old?), s1)
  else
    let loaded : Except IoErr Unit × StoreState :=
      if s.cache.is_in_range tk then (.ok (), s) else load_cache_containing_key s tk
    match loaded with
    | (.error _, s1) => (.error (.corrupted none), s1)
    | (.ok _, s1) =>
      match s1.cache.get tk with
      | .error e => (.error e, s1)
      | .ok old_value =>
        match save_key_value_pair_to_cache s1 tk v with
        | (.ok _, s2) => (.ok (), s2)
        | (.error _, s2) => (.error (.corrupted (some old_value)), s2)

/-- store.rs `delete_key_value_pair_if_exists` (the rollback helper used
by `set` on failure). -/
def delete_key_value_pair_if_exists (s : StoreState) (key : Str)
    (writeOk : Bool) : Except CkyError Unit × StoreState :=
  if s.cache.is_in_range key then
    match s.cache.remove key with
    | (.error e, c1) => (.error e, { s with cache := c1 })
    | (.ok _, c1) => (.ok (), persist_cache_to_disk { s with cache := c1 })
  else if strLe s.current_log_file key then
    match s.memtable.delete key with
    | .error e => (.error e, s)
    | .ok mt =>
      let s1 := { s with memtable := mt }
      if writeOk then (.ok (), { s1 with fs := fsWrite s1.fs (logPath s1) mt.kv_string })
      else (.error (ckyFromIo (str "log write failed")), s1)
  else (.ok (), s)

/-- store.rs `Store::set`.  The `ts` argument is the nanosecond timestamp
string the clock would return for a new key, `tsRoll` the one a segment
roll would use, and `writeOk` the outcome of log-file writes. -/
def set (s : StoreState) (k v ts tsRoll : Str) (writeOk : Bool) :
    Except CkyError Unit × StoreState :=
  match get_timestamped_key s k ts with
  | (.error e, s0) =>
    let r := remove_timestamped_key_for_key_if_exists s0 k
    (.error (.corrupted (some e)), r.2)
  | (.ok (tk, is_new), s0) =>
    match save_key_value_pair s0 tk v tsRoll writeOk with
    | (.ok _, s1) =>
      if is_new then (.ok (), { s1 with index := alInsert s1.index k tk })
      else (.ok (), s1)
    | (.error err, s1) =>
      if is_new then
        let r1 := delete_key_value_pair_if_exists s1 tk writeOk
        let r2 := remove_timestamped_key_for_key_if_exists r1.2 k
        (.error err, r2.2)
      else
        match err.get_data with
        | some old => (.error err, (save_key_value_pair s1 tk old tsRoll writeOk).2)
        | none => (.error err, s1)

/-- store.rs `get_value_for_key`: memtable for recent keys, cache (loaded
on demand) for old ones; a failed cache load surfaces through
`From<io::Error>` as `CorruptedDataError`. -/
def get_value_for_key (s : StoreState) (tk : Str) :
    Except CkyError Str × StoreState :=
  if strLe s.current_log_file tk then (s.memtable.get tk, s)
  else
    let loaded : Except IoErr Unit × StoreState :=
      if s.cache.is_in_range tk then (.ok (), s) else load_cache_containing_key s tk
    match loaded with
    | (.error ioe, s1) => (.error (ckyFromIo ioe), s1)
    | (.ok _, s1) => (s1.cache.get tk, s1)

/-- store.rs `Store::get`: a `NotFoundError` with an empty key when the
index misses, otherwise every retrieval failure is downgraded to
`CorruptedDataError`. -/
def get (s : StoreState) (k : Str) : Except CkyError Str × StoreState :=
  match lookupLast s.index k with
  | none => (.error (.notFound []), s)
  | some tk =>
    match get_value_for_key s tk with
    | (.ok v, s1) => (.ok v, s1)
    | (.error e, s1) =>
      (.error (.corrupted (some (str "error getting value: " ++ e.display))), s1)

/-- store.rs `Store::delete`: rewrite the index file without the key,
append the timestamped key to the tombstone file, drop the in-memory index
entry. -/
def delete (s : StoreState) (k : Str) : Except CkyError Unit × StoreState :=
  match lookupLast s.index k with
  | none => (.error (.notFound k), s)
  | some tk =>
    match delete_key_values_from_file s.fs INDEX_FILENAME [k] with
    | none => (.error (ckyFromIo (str "index file missing")), s)
    | some fs1 =>
      match fsAppendF fs1 DEL_FILENAME (tk ++ TOKEN_SEPARATOR) with
      | none => (.error (ckyFromIo (str "del file missing")), { s with fs := fs1 })
      | some fs2 => (.ok (), { s with fs := fs2, index := alRemove s.index k })

/-- The per-file loop of `unlocked_vacuum`, threading the filesystem. -/
def vacuumFilesFold (keys : List Str) : Fs → List Str → Except IoErr Unit × Fs
  | fs, [] => (.ok (), fs)
  | fs, name :: rest =>
    match delete_key_values_from_file fs name keys with
    | none => (.error (str "segment read failed"), fs)
    | some fs1 => vacuumFilesFold keys fs1 rest

/-- store.rs `unlocked_vacuum` (which `vacuum` runs under the tombstone
lock): read the tombstoned keys, exit early when there are none, otherwise
purge them from every `.log`/`.cky` file and truncate the tombstone file. -/
def unlocked_vacuum (s : StoreState) : Except IoErr Unit × StoreState :=
  match fsRead s.fs DEL_FILENAME with
  | none => (.error (str "del file missing"), s)
  | some delContent =>
    let keys := extract_tokens_from_str delContent
    if keys.length = 0 then (.ok (), s)
    else
      let files := (s.fs.map (fun p => p.1)).filter
        (fun n => endsWith (str ".log") n || endsWith (str ".cky") n)
      match vacuumFilesFold keys s.fs files with
      | (.error e, fs1) => (.error e, { s with fs := fs1 })
      | (.ok _, fs1) => (.ok (), { s with fs := fsWrite fs1 DEL_FILENAME [] })

/-- store.rs `Store::vacuum`: take the tombstone lock (uncontended here)
and run a cycle. -/
def vacuum (s : StoreState) : Except IoErr Unit × StoreState := unlocked_vacuum s

/-- The store state `Store::load` produces on an empty database directory:
empty index and memtable, the empty-sentinel cache, no data files, a fresh
log named `ts0`, and the three scaffolding files on disk. -/
def initState (ts0 : Str) (maxBytes : Nat) : StoreState :=
  { index := [], memtable := default, cache := Cache.new_empty,
    data_files := [], current_log_file := ts0,
    fs := [(INDEX_FILENAME, []), (DEL_FILENAME, []), (ts0 ++ str ".log", [])],
    max_file_size_bytes := maxBytes }

end Store

/-- controller.rs: the `Ckydb` handle — its open flag and the background
task handles (modelled by their count). -/
structure CkydbHandle where
  is_open : Bool
  tasks : Option Nat
deriving DecidableEq, Repr

/-- controller.rs `Ckydb::open`: a no-op returning `Ok` when already open;
otherwise load the shadow store (outcome injected via `loadOk`) and spawn
the vacuum task.  The third component counts tasks spawned by this call. -/
def CkydbHandle.openC (db : CkydbHandle) (loadOk : Bool) :
    Except IoErr Unit × CkydbHandle × Nat :=
  if db.is_open then (.ok (), db, 0)
  else if loadOk then (.ok (), { is_open := true, tasks := some 1 }, 1)
  else (.error (str "load failed"), db, 0)

/-- controller.rs `Ckydb::close`: a no-op returning `Ok` when not open;
otherwise take and join the tasks and clear the flag. -/
def CkydbHandle.closeC (db : CkydbHandle) : Except IoErr Unit × CkydbHandle :=
  if !db.is_open then (.ok (), db)
  else (.ok (), { is_open := false, tasks := none })

/-- The specification's lexicographic order, stated independently of the
code: equality or Mathlib's lexicographic strict order on char lists. -/
def specLexLe (a b : Str) : Prop := a = b ∨ List.Lex (· < ·) a b

/-- Adjacency of two entries in a list, used to state which segment pair
the range scan selects. -/
def adjacentIn (l : List Str) (a b : Str) : Prop :=
  ∃ i, l.get? i = some a ∧ l.get? (i + 1) = some b

/-- A user mutation: a `set` (with the timestamp the clock would mint for
a new key and the one a segment roll would use) or a `delete`. -/
inductive DbOp : Type
  | setOp (k v ts tsRoll : Str)
  | delOp (k : Str)
deriving DecidableEq, Repr

/-- Run one mutation against the store, keeping the resulting state
whether the operation succeeded or failed. -/
def applyDbOp (s : StoreState) : DbOp → StoreState
  | .setOp k v ts tsRoll => (Store.set s k v ts tsRoll true).2
  | .delOp k => (Store.delete s k).2

/-- Run a finite sequence of mutations. -/
def runDbOps (s : StoreState) (ops : List DbOp) : StoreState :=
  ops.foldl applyDbOp s

/-- The new-key timestamp an operation may consume. -/
def DbOp.tsParts : DbOp → List Str
  | .setOp _ _ ts _ => [ts]
  | .delOp _ => []

/-- All new-key timestamps consumed along a sequence. -/
def allSetTs (ops : List DbOp) : List Str :=
  ops.foldr (fun op acc => op.tsParts ++ acc) []

/-- Decimal-digit check for timestamp strings. -/
def allDigitsB (s : Str) : Bool :=
  s.all (fun c => decide ('0' ≤ c) && decide (c ≤ '9'))

/-- A separator-free user key, as §6 of the specification requires. -/
def goodKey (k : Str) : Prop :=
  hasSub KEY_VALUE_SEPARATOR k = false ∧ hasSub TOKEN_SEPARATOR k = false

/-- Well-formedness of one mutation: separator-free key and, for a `set`,
a nonempty decimal timestamp (I3: nanosecond wall-clock strings). -/
def goodOp : DbOp → Prop
  | .setOp k _ ts _ => goodKey k ∧ allDigitsB ts = true ∧ ts ≠ []
  | .delOp _ => True

/-- Well-formedness of a mutation sequence: every op well formed and the
minted timestamps pairwise distinct (I3: monotone generation). -/
def goodOps (ops : List DbOp) : Prop :=
  (∀ op ∈ ops, goodOp op) ∧ (allSetTs ops).Nodup

/-- A map-flavor container built by a sequence of inserts from empty. -/
def buildCkyMap (pairs : List (Str × Str)) : CkyMap :=
  pairs.foldl (fun m p => (m.insert p.1 p.2).2) default

/-- An ordered-flavor container built by a sequence of pushes from empty. -/
def buildCkyVector (vals : List Str) : CkyVector :=
  vals.foldl CkyVector.push default

/-- The specification's strict lexicographic order, independent of the
code. -/
def specLexLt (a b : Str) : Prop := List.Lex (· < ·) a b

/-- A separator is border-free when no proper nonempty suffix of it is
also a prefix of it; both separator constants are (checked by `decide`
where used). -/
def borderFreeB (sep : Str) : Bool :=
  (List.range sep.length).all (fun j => decide (j = 0) || !(isPre (sep.drop j) sep))

/-- Drop trailing empty tokens (what the trailing trim of the serializer
and `trim_end_matches` jointly do to empty tokens at the end). -/
def dropTrailEmp (l : List Str) : List Str :=
  ((l.reverse.dropWhile (fun t => decide (t = []))).reverse)

/-- The value a token contributes for a given key when parsed by
`reload_from_str`: defined when the token splits into exactly key and
value and the key matches. -/
def tokVal (t k : Str) : Option Str :=
  match splitOnStr KEY_VALUE_SEPARATOR t with
  | [k2, v] => if k2 = k then some v else none
  | _ => none

/-- Right-to-left search of a token list for the value of a key, the
lookup semantics of the `reload_from_str` fold. -/
def parseLookup : List Str → Str → Option Str
  | [], _ => none
  | t :: rest, k =>
    match parseLookup rest k with
    | some v => some v
    | none => tokVal t k

/-- The rewrite `delete_key_values_from_file` applies to one file's
content. -/
def rewriteContent (keys : List Str) (c : Str) : Str :=
  joinT ((extract_tokens_from_str c).filter
    (fun t => !(hasAnyPre t (keys.map (fun k => k ++ KEY_VALUE_SEPARATOR)))))

/-- Name has a `.log` or `.cky` suffix (what the vacuum enumeration
selects). -/
def endsLogCky (n : Str) : Bool :=
  endsWith (str ".log") n || endsWith (str ".cky") n

/-- Uniqueness of directory entries in the modelled filesystem. -/
def FsInv (fs : Fs) : Prop := (fs.map (fun p => p.1)).Nodup

/-- A timestamped key built from one of the consumed timestamps and a
separator-free user key. -/
def TsShaped (T : List Str) (t : Str) : Prop :=
  ∃ ts ∈ T, ∃ k, allDigitsB ts = true ∧ ts ≠ [] ∧ goodKey k ∧ t = ts ++ '-' :: k

/-- The state invariant the mutation sequence maintains for compaction
invisibility: the tombstone file holds the serialized list `D` of deleted
timestamped keys, every entry of `D` and of the index is a well-shaped
timestamped key over the consumed timestamps `T`, no index entry is
tombstoned, and directory entries are unique. -/
def VacInv (s : StoreState) (T : List Str) : Prop :=
  ∃ D, fsRead s.fs DEL_FILENAME = some (joinT D) ∧
    (∀ d ∈ D, TsShaped T d) ∧
    (∀ k tk, lookupLast s.index k = some tk →
      ∃ ts ∈ T, allDigitsB ts = true ∧ ts ≠ [] ∧ goodKey k ∧ tk = ts ++ '-' :: k) ∧
    (∀ k tk, lookupLast s.index k = some tk → tk ∉ D) ∧
    FsInv s.fs

/-- Tokens interleaved with single separators (no trailing separator):
what `joinT` produces up to its final separator. -/
def interT (sep : Str) : List Str → Str
  | [] => []
  | [t] => t
  | t :: r => t ++ sep ++ interT sep r

/-- The canonical token/position list of an interleaved string: each token
with its byte offset. -/
def tokensPos (sep : Str) : List Str → Nat → List (Str × Nat)
  | [], _ => []
  | t :: r, p => (t, p) :: tokensPos sep r (p + t.length + sep.length)

/-- One map entry's token body (without the trailing token separator). -/
def coreTok (p : Str × Str) : Str := p.1 ++ KEY_VALUE_SEPARATOR ++ p.2

/-- The canonical offset table of a map built by fresh inserts. -/
def mapOffs : List (Str × Str) → Nat → List (Str × Nat)
  | [], _ => []
  | p :: r, pos =>
    (p.1, pos) :: mapOffs r (pos + (coreTok p).length + TOKEN_SEPARATOR_LENGTH)

instance : DecidablePred goodKey := fun k =>
  decidable_of_iff
    (hasSub KEY_VALUE_SEPARATOR k = false ∧ hasSub TOKEN_SEPARATOR k = false)
    Iff.rfl

instance : DecidablePred goodOp := fun op =>
  match op with
  | .setOp k _ ts _ =>
    decidable_of_iff (goodKey k ∧ allDigitsB ts = true ∧ ts ≠ []) Iff.rfl
  | .delOp _ => .isTrue trivial

instance (ops : List DbOp) : Decidable (goodOps ops) :=
  decidable_of_iff ((∀ op ∈ ops, goodOp op) ∧ (allSetTs ops).Nodup) Iff.rfl

/-- The frame a store helper preserves on the way to the compaction
invariant: the tombstone file is untouched, directory-entry uniqueness
survives, and the in-memory index is unchanged. -/
def StoreFrame (s1 s2 : StoreState) : Prop :=
  fsRead s2.fs DEL_FILENAME = fsRead s1.fs DEL_FILENAME ∧
  (FsInv s1.fs → FsInv s2.fs) ∧ s2.index = s1.index

/-- First step of the C1 scenario: set `x><` to `BB` at timestamp 10 on a
fresh store. -/
def c1r1 : Except CkyError Unit × StoreState :=
  Store.set (Store.initState (str "0") 1000000) (str "x><") (str "BB")
    (str "10") (str "99999") true

/-- Second step of the C1 scenario: set `a` to `AAA` at timestamp 11. -/
def c1r2 : Except CkyError Unit × StoreState :=
  Store.set c1r1.2 (str "a") (str "AAA") (str "11") (str "99999") true

/-- Third step of the C1 scenario: set `x` to `zzQQQQ` at timestamp
5510. -/
def c1r3 : Except CkyError Unit × StoreState :=
  Store.set c1r2.2 (str "x") (str "zzQQQQ") (str "5510") (str "99999") true

/-- Fourth step of the C1 scenario: update `a` to the shorter `ZZ`. -/
def c1r4 : Except CkyError Unit × StoreState :=
  Store.set c1r3.2 (str "a") (str "ZZ") (str "12") (str "99999") true

/-- Fifth step of the C1 scenario: update `x><` to `VV`. -/
def c1r5 : Except CkyError Unit × StoreState :=
  Store.set c1r4.2 (str "x><") (str "VV") (str "13") (str "99999") true

/-- The C2 scenario: replace `a`'s value with a longer one in the
three-entry map container. -/
def c2r : Except CkyError (Option Str) × CkyMap :=
  (buildCkyMap [(str "a", str "1"), (str "b", str "2"),
    (str "c", str "3")]).insert (str "a") (str "longer-value")

/-- The C6 scenario: a `set` of the new key `a` on a fresh store whose
log-file write fails. -/
def c6r : Except CkyError Unit × StoreState :=
  Store.set (Store.initState (str "0") 1000000) (str "a") (str "1")
    (str "5") (str "99") false

/-- Unfolding equation for `strLt` on two cons cells. -/
theorem strLt_cons (a b : Char) (as bs : Str) :
    strLt (a :: as) (b :: bs) =
      if a < b then true else if b < a then false else strLt as bs := rfl

/-- `strLt` is irreflexive. -/
theorem strLt_irrefl (a : Str) : strLt a a = false := by
  induction a with
  | nil => rfl
  | cons c r ih => rw [strLt_cons, if_neg (lt_irrefl c), if_neg (lt_irrefl c)]; exact ih

/-- `strLt` is asymmetric. -/
theorem strLt_asymm {a : Str} : ∀ {b : Str}, strLt a b = true → strLt b a = false := by
  induction a with
  | nil =>
    intro b h
    cases b with
    | nil => exact absurd h (by decide)
    | cons d ds => rfl
  | cons c cs ih =>
    intro b h
    cases b with
    | nil => cases h
    | cons d ds =>
      rw [strLt_cons] at h
      rw [strLt_cons]
      rcases lt_trichotomy c d with h1 | h1 | h1
      · rw [if_neg (lt_asymm h1), if_pos h1]
      · subst h1
        rw [if_neg (lt_irrefl c), if_neg (lt_irrefl c)] at h
        rw [if_neg (lt_irrefl c), if_neg (lt_irrefl c)]
        exact ih h
      · rw [if_neg (lt_asymm h1), if_pos h1] at h
        cases h

/-- `strLt` is transitive. -/
theorem strLt_trans {a : Str} : ∀ {b c : Str}, strLt a b = true →
    strLt b c = true → strLt a c = true := by
  induction a with
  | nil =>
    intro b c h1 h2
    cases b with
    | nil => exact absurd h1 (by decide)
    | cons d ds =>
      cases c with
      | nil => cases h2
      | cons e es => rfl
  | cons x xs ih =>
    intro b c h1 h2
    cases b with
    | nil => cases h1
    | cons y ys =>
      cases c with
      | nil => cases h2
      | cons z zs =>
        rw [strLt_cons] at h1 h2
        rw [strLt_cons]
        rcases lt_trichotomy x y with hxy | hxy | hxy
        · rcases lt_trichotomy y z with hyz | hyz | hyz
          · rw [if_pos (lt_trans hxy hyz)]
          · subst hyz; rw [if_pos hxy]
          · rw [if_neg (lt_asymm hyz), if_pos hyz] at h2; cases h2
        · subst hxy
          rcases lt_trichotomy x z with hxz | hxz | hxz
          · rw [if_pos hxz]
          · subst hxz
            rw [if_neg (lt_irrefl x), if_neg (lt_irrefl x)] at h1 h2 ⊢
            exact ih h1 h2
          · rw [if_neg (lt_asymm hxz), if_pos hxz] at h2; cases h2
        · rw [if_neg (lt_asymm hxy), if_pos hxy] at h1; cases h1

/-- Two strings neither of which is below the other are equal. -/
theorem strLt_connex {a : Str} : ∀ {b : Str}, strLt a b = false →
    strLt b a = false → a = b := by
  induction a with
  | nil =>
    intro b h1 _
    cases b with
    | nil => rfl
    | cons d ds => cases h1
  | cons c cs ih =>
    intro b h1 h2
    cases b with
    | nil => cases h2
    | cons d ds =>
      rw [strLt_cons] at h1 h2
      rcases lt_trichotomy c d with h | h | h
      · rw [if_pos h] at h1; cases h1
      · subst h
        rw [if_neg (lt_irrefl c), if_neg (lt_irrefl c)] at h1 h2
        rw [ih h1 h2]
      · rw [if_neg (lt_asymm h), if_pos h] at h2; cases h2

/-- The code's boolean order agrees with the specification's lexicographic
strict order. -/
theorem strLt_iff_lex {a : Str} : ∀ {b : Str}, strLt a b = true ↔ specLexLt a b := by
  induction a with
  | nil =>
    intro b
    cases b with
    | nil =>
      constructor
      · intro h; cases h
      · intro h; cases h
    | cons d ds =>
      constructor
      · intro _; exact List.Lex.nil
      · intro _; rfl
  | cons c cs ih =>
    intro b
    cases b with
    | nil =>
      constructor
      · intro h; cases h
      · intro h; cases h
    | cons d ds =>
      rw [strLt_cons]
      constructor
      · intro h
        rcases lt_trichotomy c d with h1 | h1 | h1
        · exact List.Lex.rel h1
        · subst h1
          rw [if_neg (lt_irrefl c), if_neg (lt_irrefl c)] at h
          exact List.Lex.cons (ih.1 h)
        · rw [if_neg (lt_asymm h1), if_pos h1] at h; cases h
      · intro h
        cases h with
        | rel h1 => rw [if_pos h1]
        | cons h1 =>
          rw [if_neg (lt_irrefl c), if_neg (lt_irrefl c)]
          exact ih.2 h1

/-- The code's boolean `<=` agrees with the specification's lexicographic
`<=` (equality or strictly below). -/
theorem strLe_iff {a b : Str} : strLe a b = true ↔ specLexLe a b := by
  unfold strLe specLexLe
  rw [Bool.not_eq_true']
  constructor
  · intro h
    rcases hab : strLt a b with _ | _
    · exact Or.inl (strLt_connex hab h)
    · exact Or.inr (strLt_iff_lex.1 hab)
  · intro h
    rcases h with h | h
    · subst h; exact strLt_irrefl a
    · exact strLt_asymm (strLt_iff_lex.2 h)

/-- C1.  The claim — every `get(k)` immediately after a successful
`set(k,v)` returns `v`, across any sequence of separator-free sets —
fails on the code.  In the five-set sequence below (fresh store, all
timestamps routed to the memtable, no segment roll), every `set` returns
`Ok`, yet the `get("x><")` immediately after the final `set("x><","VV")`
returns the garbage value `"QQQQ$%"`: `TokenizedString.__replace_offset`
shifts later offsets by `old_end - new_end` (the wrong direction), so the
third entry's stale key window happens to read `"10-x><"` again and its
garbage value shadows the freshly written one in `map()`. -/
theorem C1_set_then_get_returns_stale_value :
    c1r1.1 = .ok () ∧ c1r2.1 = .ok () ∧ c1r3.1 = .ok () ∧ c1r4.1 = .ok () ∧
      c1r5.1 = .ok () ∧
      (Store.get c1r5.2 (str "x><")).1 = .ok (str "QQQQ$%") ∧
      str "QQQQ$%" ≠ str "VV" := by
  decide

/-- C2.  The claim — after replacing `a`'s value in a map-flavor container
`{a:1, b:2, c:3}` with a longer value, the stored offsets of `b` and `c`
are shifted to their new byte positions — fails on the code:
`CkyMap::insert` splices the blob but never touches the other keys'
offsets, so they stay at 17 and 34 although the tokens of `b` and `c` now
start at 28 and 45.  The second half of the claim does hold: `get(b)` and
`get(c)` still return `"2"` and `"3"` because `CkyMap::get` reads the
separate `inner_map`. -/
theorem C2_offsets_stale_after_update :
    c2r.1 = .ok (some (str "1")) ∧
      lookupLast c2r.2.offsets (str "b") = some 17 ∧
      lookupLast c2r.2.offsets (str "c") = some 34 ∧
      extract c2r.2.kv_string 17 18 ≠ str "b" ∧
      extract c2r.2.kv_string 28 29 = str "b" ∧
      extract c2r.2.kv_string 45 46 = str "c" ∧
      c2r.2.get (str "b") = .ok (str "2") ∧
      c2r.2.get (str "c") = .ok (str "3") := by
  decide

/-- C3, counterexample.  The claim says a timestamped key exactly equal to
the cache's `end` bound is reported out of range; `Cache::is_in_range`
uses `key <= end`, so the key equal to `end` is accepted. -/
theorem C3_counterexample_key_equal_end_accepted :
    Cache.is_in_range ⟨default, str "0", str "5"⟩ (str "5") = true ∧
      ¬ specLexLt (str "5") (str "5") := by
  constructor
  · decide
  · intro h
    cases h with
    | cons h' => cases h'
    | rel h' => exact absurd h' (by decide)

/-- C4, counterexample.  The claim says no segment is chosen when the
timestamped key is smaller than every data-file name; the scan in
`get_timestamp_range_for_key` returns the first adjacent pair whose upper
bound exceeds the key without checking the lower bound, so with data file
`"5"`, active log `"9"` and key `"3"` it still selects segment `"5"`. -/
theorem C4_counterexample_tk_below_all_segments :
    let s : StoreState :=
      { index := [], memtable := default, cache := Cache.new_empty,
        data_files := [str "5"], current_log_file := str "9",
        fs := [], max_file_size_bytes := 0 }
    strLt (str "3") (str "5") = true ∧ strLt (str "3") (str "9") = true ∧
      Store.get_timestamp_range_for_key s (str "3") = some (str "5", str "9") := by
  decide

/-- C6.  The claim — a failed `set` of a new key rolls the appended index
entry back out of the persisted index file — fails on the code: when the
log-file write fails, `remove_timestamped_key_for_key_if_exists` is a
no-op because the in-memory index does not contain the new key yet (it is
only inserted after a successful save), so the appended
`a><?&(^#5-a$%#@*&^&` entry stays in `index.idx` while the in-memory index
stays empty. -/
theorem C6_failed_set_of_new_key_leaves_index_file_entry :
    c6r.1 = .error (.corrupted none) ∧
      fsRead c6r.2.fs INDEX_FILENAME =
        some (str "a" ++ KEY_VALUE_SEPARATOR ++ str "5-a" ++ TOKEN_SEPARATOR) ∧
      lookupLast c6r.2.index (str "a") = none := by
  decide

/-- C9, counterexample.  The claim says reloading any reachable container
from its own serialization reproduces the offset table; after the
update-with-a-longer-value sequence the stored offset of `b` is the stale
17 while the reload recomputes the true 28, so the reloaded offsets differ
from the original's. -/
theorem C9_counterexample_reload_changes_offsets :
    let m := ((buildCkyMap [(str "a", str "1"), (str "b", str "2"), (str "c", str "3")]).insert
      (str "a") (str "longer-value")).2
    let rl := CkyMap.fromStr (CkyMap.toStr m)
    lookupLast m.offsets (str "b") = some 17 ∧
      lookupLast rl.offsets (str "b") = some 28 := by
  decide

/-- C10.  `Ckydb::open` on an already-open handle returns `Ok` at once and
spawns no task; `Ckydb::close` on a handle that is not open returns `Ok`
and changes nothing; neither reports an already-running or not-running
error. -/
theorem C10_lifecycle_misuse_is_noop (db : CkydbHandle) (b : Bool) :
    (db.is_open = true → db.openC b = (.ok (), db, 0)) ∧
    (db.is_open = false → db.closeC = (.ok (), db)) := by
  constructor <;> intro h <;> simp [CkydbHandle.openC, CkydbHandle.closeC, h]

/-- C10 witness: the lifecycle no-ops at concrete handles. -/
theorem C10_lifecycle_misuse_is_noop_witness :
    CkydbHandle.openC ⟨true, some 1⟩ true = (.ok (), ⟨true, some 1⟩, 0) ∧
    CkydbHandle.closeC ⟨false, none⟩ = (.ok (), ⟨false, none⟩) :=
  ⟨(C10_lifecycle_misuse_is_noop ⟨true, some 1⟩ true).1 rfl,
   (C10_lifecycle_misuse_is_noop ⟨false, none⟩ true).2 rfl⟩

/-- C3, amended.  `Cache::is_in_range` accepts a timestamped key exactly
when `start ≤ tk` and `tk ≤ end` hold in the specification's lexicographic
order — the upper bound is inclusive, not the claimed strict `tk < end`. -/
theorem C3_is_in_range_iff (c : Cache) (tk : Str) :
    Cache.is_in_range c tk = true ↔ (specLexLe c.start tk ∧ specLexLe tk c.end_) := by
  unfold Cache.is_in_range
  rw [Bool.and_eq_true, strLe_iff, strLe_iff]

/-- The range scan only returns adjacent pairs of its input list, with the
key strictly below the returned upper bound. -/
theorem findRangePair_adjacent :
    ∀ (l : List Str) (tk lo hi : Str), Store.findRangePair l tk = some (lo, hi) →
      adjacentIn l lo hi ∧ strLt tk hi = true := by
  intro l
  induction l with
  | nil => intro tk lo hi h; cases h
  | cons a rest ih =>
    intro tk lo hi h
    cases rest with
    | nil => cases h
    | cons b rest2 =>
      rw [Store.findRangePair] at h
      by_cases hb : strLt tk b = true
      · rw [if_pos hb] at h
        injection h with h
        injection h with h1 h2
        subst h1; subst h2
        exact ⟨⟨0, rfl, rfl⟩, hb⟩
      · rw [if_neg hb] at h
        obtain ⟨⟨i, hi1, hi2⟩, h3⟩ := ih tk lo hi h
        exact ⟨⟨i + 1, hi1, hi2⟩, h3⟩

/-- The scan's lower bound is either at most the key or the head of the
list. -/
theorem findRangePair_lower :
    ∀ (l : List Str) (tk lo hi : Str), Store.findRangePair l tk = some (lo, hi) →
      strLe lo tk = true ∨ l.head? = some lo := by
  intro l
  induction l with
  | nil => intro tk lo hi h; cases h
  | cons a rest ih =>
    intro tk lo hi h
    cases rest with
    | nil => cases h
    | cons b rest2 =>
      rw [Store.findRangePair] at h
      by_cases hb : strLt tk b = true
      · rw [if_pos hb] at h
        injection h with h
        injection h with h1 _
        subst h1
        exact Or.inr rfl
      · rw [if_neg hb] at h
        rcases ih tk lo hi h with h1 | h1
        · exact Or.inl h1
        · rw [List.head?] at h1
          injection h1 with h1
          subst h1
          left
          unfold strLe
          rcases hv : strLt tk b with _ | _
          · rfl
          · exact absurd hv hb

/-- `strLe` is reflexive. -/
theorem strLe_refl (a : Str) : strLe a a = true := by
  unfold strLe
  rw [strLt_irrefl]
  rfl

/-- Strictly below implies at most. -/
theorem strLe_of_strLt {a b : Str} (h : strLt a b = true) : strLe a b = true := by
  unfold strLe
  rw [Bool.not_eq_true', strLt_asymm h]

/-- Strict order composed with the weak order on the right. -/
theorem strLt_of_lt_of_le {a b c : Str} (h1 : strLt a b = true)
    (h2 : strLe b c = true) : strLt a c = true := by
  unfold strLe at h2
  rw [Bool.not_eq_true'] at h2
  rcases h3 : strLt b c with _ | _
  · rw [← strLt_connex h3 h2]
    exact h1
  · exact strLt_trans h1 h3

/-- On a sorted list the scan's lower bound dominates every list element
that is at most the key. -/
theorem findRangePair_greatest :
    ∀ (l : List Str) (tk lo hi : Str),
      List.Pairwise (fun a b => strLt a b = true) l →
      Store.findRangePair l tk = some (lo, hi) →
      ∀ d ∈ l, strLe d tk = true → strLe d lo = true := by
  intro l
  induction l with
  | nil => intro tk lo hi _ h; cases h
  | cons a rest ih =>
    intro tk lo hi hs h d hd hdle
    cases rest with
    | nil => cases h
    | cons b rest2 =>
      rw [Store.findRangePair] at h
      by_cases hb : strLt tk b = true
      · rw [if_pos hb] at h
        injection h with h
        injection h with h1 _
        subst h1
        rcases List.mem_cons.1 hd with rfl | hd2
        · exact strLe_refl d
        · exfalso
          have hbd : strLe b d = true := by
            rcases List.mem_cons.1 hd2 with rfl | hd3
            · exact strLe_refl d
            · exact strLe_of_strLt
                ((List.pairwise_cons.1 (List.pairwise_cons.1 hs).2).1 d hd3)
          have htkd : strLt tk d = true := strLt_of_lt_of_le hb hbd
          unfold strLe at hdle
          rw [Bool.not_eq_true', htkd] at hdle
          cases hdle
      · rw [if_neg hb] at h
        rcases List.mem_cons.1 hd with rfl | hd2
        · have hmem : lo ∈ b :: rest2 := by
            obtain ⟨⟨i, hi1, _⟩, _⟩ := findRangePair_adjacent (b :: rest2) tk lo hi h
            exact List.get?_mem hi1
          exact strLe_of_strLt ((List.pairwise_cons.1 hs).1 lo hmem)
        · exact ih tk lo hi (List.pairwise_cons.1 hs).2 h d hd2 hdle

/-- The scan succeeds whenever the key lies below the final element (the
active log's name) and at least one data file is present. -/
theorem findRangePair_some_of_lt_last :
    ∀ (df : List Str) (log tk : Str), df ≠ [] → strLt tk log = true →
      ∃ lo hi, Store.findRangePair (df ++ [log]) tk = some (lo, hi) := by
  intro df
  induction df with
  | nil => intro log tk h _; exact absurd rfl h
  | cons a rest ih =>
    intro log tk _ hlt
    cases rest with
    | nil =>
      refine ⟨a, log, ?_⟩
      show Store.findRangePair (a :: log :: []) tk = some (a, log)
      rw [Store.findRangePair, if_pos hlt]
    | cons b rest2 =>
      show ∃ lo hi, Store.findRangePair (a :: b :: (rest2 ++ [log])) tk = some (lo, hi)
      rw [Store.findRangePair]
      by_cases hb : strLt tk b = true
      · rw [if_pos hb]
        exact ⟨a, b, rfl⟩
      · rw [if_neg hb]
        exact ih log tk (by intro h; cases h) hlt

/-- C4, amended.  With a nonempty sorted segment directory and a key below
the active log's name, the scan returns the first adjacent pair whose
upper bound exceeds the key: the lower bound is always some data file; if
a data file is at most the key, the lower bound is the largest such data
file; but if the key is smaller than every data-file name, the first
segment is chosen anyway — never "no segment", contrary to the claim's
final clause. -/
theorem C4_range_scan_characterization (s : StoreState) (TK : Str)
    (hs : List.Pairwise (fun a b => strLt a b = true)
      (s.data_files ++ [s.current_log_file]))
    (hne : s.data_files ≠ [])
    (hlt : strLt TK s.current_log_file = true) :
    ∃ lo hi, Store.get_timestamp_range_for_key s TK = some (lo, hi) ∧
      adjacentIn (s.data_files ++ [s.current_log_file]) lo hi ∧
      strLt TK hi = true ∧ lo ∈ s.data_files ∧
      ((∃ d ∈ s.data_files, strLe d TK = true) →
        strLe lo TK = true ∧
        ∀ d ∈ s.data_files, strLe d TK = true → strLe d lo = true) ∧
      ((∀ d ∈ s.data_files, strLt TK d = true) →
        s.data_files.head? = some lo) := by
  obtain ⟨lo, hi, heq⟩ :=
    findRangePair_some_of_lt_last s.data_files s.current_log_file TK hne hlt
  obtain ⟨hadj, hhi⟩ :=
    findRangePair_adjacent (s.data_files ++ [s.current_log_file]) TK lo hi heq
  obtain ⟨i, hgi, hgi1⟩ := hadj
  have hilen : i + 1 < (s.data_files ++ [s.current_log_file]).length := by
    rcases List.get?_eq_some.1 hgi1 with ⟨h, _⟩
    exact h
  have hidf : i < s.data_files.length := by
    have h2 := hilen
    rw [List.length_append, List.length_singleton] at h2
    omega
  have hlodf : lo ∈ s.data_files := by
    have h3 : (s.data_files ++ [s.current_log_file]).get? i = s.data_files.get? i :=
      List.get?_append hidf
    rw [h3] at hgi
    exact List.get?_mem hgi
  refine ⟨lo, hi, heq, ⟨i, hgi, hgi1⟩, hhi, hlodf, ?_, ?_⟩
  · rintro ⟨d, hd, hdle⟩
    have hmain := findRangePair_greatest
      (s.data_files ++ [s.current_log_file]) TK lo hi hs heq
    have hdlo : strLe d lo = true := hmain d (List.mem_append_left _ hd) hdle
    have hlole : strLe lo TK = true := by
      rcases findRangePair_lower
        (s.data_files ++ [s.current_log_file]) TK lo hi heq with h | h
      · exact h
      · cases hdf : s.data_files with
        | nil => exact absurd hdf hne
        | cons a rest =>
          rw [hdf, List.cons_append, List.head?] at h
          have ha : a = lo := by injection h
          rw [← ha]
          rw [hdf] at hd
          rcases List.mem_cons.1 hd with rfl | hd2
          · exact hdle
          · exfalso
            have hlt2 : strLt a d = true := by
              have hp := hs
              rw [hdf, List.cons_append] at hp
              exact (List.pairwise_cons.1 hp).1 d
                (List.mem_append_left _ hd2)
            rw [← ha] at hdlo
            unfold strLe at hdlo
            rw [Bool.not_eq_true', hlt2] at hdlo
            cases hdlo
    exact ⟨hlole, fun d2 hd2 hdle2 =>
      hmain d2 (List.mem_append_left _ hd2) hdle2⟩
  · intro hall
    rcases findRangePair_lower
      (s.data_files ++ [s.current_log_file]) TK lo hi heq with h | h
    · exfalso
      have h4 := hall lo hlodf
      unfold strLe at h
      rw [Bool.not_eq_true', h4] at h
      cases h
    · cases hdf : s.data_files with
      | nil => exact absurd hdf hne
      | cons a rest =>
        rw [hdf, List.cons_append, List.head?] at h
        rw [List.head?]
        exact h

/-- C4 amended, witness: data files `["3","5"]`, log `"9"`, key `"4"`:
the scan picks `("3","5")`, the largest data file at most the key. -/
theorem C4_range_scan_characterization_witness :
    ∃ lo hi,
      Store.get_timestamp_range_for_key
        { index := [], memtable := default, cache := Cache.new_empty,
          data_files := [str "3", str "5"], current_log_file := str "9",
          fs := [], max_file_size_bytes := 0 } (str "4") = some (lo, hi) ∧
      adjacentIn [str "3", str "5", str "9"] lo hi ∧
      strLt (str "4") hi = true ∧ lo ∈ [str "3", str "5"] ∧
      ((∃ d ∈ [str "3", str "5"], strLe d (str "4") = true) →
        strLe lo (str "4") = true ∧
        ∀ d ∈ [str "3", str "5"], strLe d (str "4") = true → strLe d lo = true) ∧
      ((∀ d ∈ [str "3", str "5"], strLt (str "4") d = true) →
        List.head? [str "3", str "5"] = some lo) :=
  C4_range_scan_characterization
    { index := [], memtable := default, cache := Cache.new_empty,
      data_files := [str "3", str "5"], current_log_file := str "9",
      fs := [], max_file_size_bytes := 0 } (str "4")
    (by decide) (by decide) (by decide)

/-- Lookup after appending one pair: the appended pair wins. -/
theorem lookupLast_cons {α : Type} (q : Str × α) (rest : List (Str × α))
    (k : Str) :
    lookupLast (q :: rest) k =
      match lookupLast rest k with
      | some v => some v
      | none => if q.1 = k then some q.2 else none := rfl

theorem lookupLast_append_single {α : Type} (l : List (Str × α)) (p : Str × α)
    (k : Str) :
    lookupLast (l ++ [p]) k = if p.1 = k then some p.2 else lookupLast l k := by
  induction l with
  | nil => rfl
  | cons q rest ih =>
    show lookupLast (q :: (rest ++ [p])) k = _
    rw [lookupLast_cons, ih]
    by_cases hp : p.1 = k
    · simp [hp]
    · rw [if_neg hp, if_neg hp, lookupLast_cons]

/-- Filtering away another key's bindings does not change a lookup. -/
theorem lookupLast_filter_ne {α : Type} (l : List (Str × α)) (n m : Str)
    (h : m ≠ n) :
    lookupLast (l.filter (fun q => !(q.1 == n))) m = lookupLast l m := by
  induction l with
  | nil => rfl
  | cons q rest ih =>
    by_cases hq : q.1 = n
    · rw [List.filter_cons_of_neg (by simp [hq]), ih, lookupLast_cons]
      have hqm : ¬ q.1 = m := fun hc => h (hc.symm.trans hq)
      rcases hlm : lookupLast rest m with _ | v
      · rw [if_neg hqm]
      · rfl
    · rw [List.filter_cons_of_pos (by simp [hq]), lookupLast_cons,
        lookupLast_cons, ih]

/-- Lookup of the filtered-out key is `none`. -/
theorem lookupLast_filter_self {α : Type} (l : List (Str × α)) (n : Str) :
    lookupLast (l.filter (fun q => !(q.1 == n))) n = none := by
  induction l with
  | nil => rfl
  | cons q rest ih =>
    by_cases hq : q.1 = n
    · rw [List.filter_cons_of_neg (by simp [hq])]
      exact ih
    · rw [List.filter_cons_of_pos (by simp [hq]), lookupLast_cons, ih, if_neg hq]

/-- Lookup after an insert at another key. -/
theorem lookupLast_alInsert_ne {α : Type} (l : List (Str × α)) (n m : Str)
    (v : α) (h : m ≠ n) :
    lookupLast (alInsert l n v) m = lookupLast l m := by
  unfold alInsert
  rw [lookupLast_append_single]
  have : ¬ n = m := fun hc => h hc.symm
  rw [if_neg this]
  exact lookupLast_filter_ne l n m h

/-- Lookup after an insert at the same key. -/
theorem lookupLast_alInsert_self {α : Type} (l : List (Str × α)) (n : Str)
    (v : α) : lookupLast (alInsert l n v) n = some v := by
  unfold alInsert
  rw [lookupLast_append_single, if_pos rfl]

/-- Lookup of a removed key is `none`. -/
theorem lookupLast_alRemove_self {α : Type} (l : List (Str × α)) (n : Str) :
    lookupLast (alRemove l n) n = none := lookupLast_filter_self l n

/-- Removal at another key does not change a lookup. -/
theorem lookupLast_alRemove_ne {α : Type} (l : List (Str × α)) (n m : Str)
    (h : m ≠ n) : lookupLast (alRemove l n) m = lookupLast l m :=
  lookupLast_filter_ne l n m h

/-- A data segment's file name never collides with the index file. -/
theorem dataPath_ne_index (base : Str) : Store.dataPath base ≠ INDEX_FILENAME := by
  intro h
  unfold Store.dataPath at h
  have h2 := congrArg List.getLast? h
  rw [List.getLast?_append_of_ne_nil base (show str ".cky" ≠ [] by decide)] at h2
  exact absurd h2 (by decide)

/-- A data segment's file name never collides with the tombstone file. -/
theorem dataPath_ne_del (base : Str) : Store.dataPath base ≠ DEL_FILENAME := by
  intro h
  unfold Store.dataPath at h
  have h2 := congrArg List.getLast? h
  rw [List.getLast?_append_of_ne_nil base (show str ".cky" ≠ [] by decide)] at h2
  exact absurd h2 (by decide)

/-- `get_value_for_key` reads the filesystem only through `.cky` segment
files, so two states agreeing on the memtable, cache, directory listing
and every segment file return the same value. -/
theorem get_value_for_key_congr (s1 s2 : StoreState) (tk : Str)
    (hmem : s1.memtable = s2.memtable) (hcache : s1.cache = s2.cache)
    (hdf : s1.data_files = s2.data_files)
    (hlog : s1.current_log_file = s2.current_log_file)
    (hfs : ∀ base, fsRead s1.fs (Store.dataPath base) =
      fsRead s2.fs (Store.dataPath base)) :
    (Store.get_value_for_key s1 tk).1 = (Store.get_value_for_key s2 tk).1 := by
  unfold Store.get_value_for_key Store.load_cache_containing_key
    Store.get_timestamp_range_for_key
  rw [hmem, hcache, hdf, hlog]
  by_cases hroute : strLe s2.current_log_file tk = true
  · rw [if_pos hroute, if_pos hroute]
  · rw [if_neg hroute, if_neg hroute]
    by_cases hin : s2.cache.is_in_range tk = true
    · rw [if_pos hin, if_pos hin]
      show s1.cache.get tk = s2.cache.get tk
      rw [hcache]
    · rw [if_neg hin, if_neg hin]
      rcases hr : Store.findRangePair (s2.data_files ++ [s2.current_log_file]) tk with
        _ | ⟨a, b⟩
      · simp only [hr]
      · simp only [hr, hfs a]
        rcases hread : fsRead s2.fs (Store.dataPath a) with _ | content
        · simp only [hread]
        · simp only [hread]

/-- C7.  `Store::get` fails with not-found exactly when the key is absent
from the in-memory index; when the index has the key, every retrieval
failure — memtable or cache miss, failed segment load, missing file —
surfaces as corrupted, never as not-found and never as a raw I/O error
(the error type has no I/O constructor: `From<io::Error>` maps into
corrupted). -/
theorem C7_get_error_classification (s : StoreState) (k : Str) :
    ((∃ e, (Store.get s k).1 = .error e ∧ ∃ key, e = .notFound key) ↔
      lookupLast s.index k = none) ∧
    (∀ e, (Store.get s k).1 = .error e →
      (∃ key, e = .notFound key) ∨ ∃ d, e = .corrupted d) := by
  unfold Store.get
  rcases hidx : lookupLast s.index k with _ | tk
  · refine ⟨⟨fun _ => rfl, fun _ => ⟨.notFound [], rfl, [], rfl⟩⟩, ?_⟩
    intro e he
    simp only [] at he
    injection he with he
    exact Or.inl ⟨[], he.symm⟩
  · rcases hv : Store.get_value_for_key s tk with ⟨r, s1⟩
    rcases r with e0 | v
    · simp only [hv]
      refine ⟨⟨?_, ?_⟩, ?_⟩
      · rintro ⟨e, he, key, hkey⟩
        injection he with he
        rw [hkey] at he
        cases he
      · intro hc
        exact Option.noConfusion hc
      · intro e he
        injection he with he
        exact Or.inr ⟨_, he.symm⟩
    · simp only [hv]
      refine ⟨⟨?_, ?_⟩, ?_⟩
      · rintro ⟨e, he, _⟩
        cases he
      · intro hc
        exact Option.noConfusion hc
      · intro e he
        cases he

/-- C7 witness: on a store whose index maps `"old"` to a timestamped key
in a missing segment, the get of `"old"` is corrupted and the get of an
unindexed key is not-found. -/
theorem C7_get_error_classification_witness :
    ((∃ e, (Store.get
        { index := [(str "old", str "3-old")], memtable := default,
          cache := Cache.new_empty, data_files := [str "2"],
          current_log_file := str "5", fs := [], max_file_size_bytes := 0 }
        (str "nope")).1 = .error e ∧ ∃ key, e = .notFound key) ↔
      lookupLast [(str "old", str "3-old")] (str "nope") = none) ∧
    (∀ e, (Store.get
        { index := [(str "old", str "3-old")], memtable := default,
          cache := Cache.new_empty, data_files := [str "2"],
          current_log_file := str "5", fs := [], max_file_size_bytes := 0 }
        (str "nope")).1 = .error e →
      (∃ key, e = .notFound key) ∨ ∃ d, e = .corrupted d) :=
  C7_get_error_classification
    { index := [(str "old", str "3-old")], memtable := default,
      cache := Cache.new_empty, data_files := [str "2"],
      current_log_file := str "5", fs := [], max_file_size_bytes := 0 }
    (str "nope")

/-- Unpacking a successful append to a file. -/
theorem fsAppendF_eq {fs : Fs} {name content : Str} {fs2 : Fs}
    (h : fsAppendF fs name content = some fs2) :
    ∃ c, fsRead fs name = some c ∧ fs2 = alInsert fs name (c ++ content) := by
  unfold fsAppendF at h
  rcases hr : fsRead fs name with _ | c
  · rw [hr] at h; cases h
  · rw [hr] at h
    injection h with h
    exact ⟨c, rfl, h.symm⟩

/-- Unpacking a successful filtered rewrite of a file. -/
theorem delete_kvs_eq {fs : Fs} {name : Str} {keys : List Str} {fs2 : Fs}
    (h : delete_key_values_from_file fs name keys = some fs2) :
    ∃ c, fsRead fs name = some c ∧
      fs2 = fsWrite fs name (joinT ((extract_tokens_from_str c).filter
        (fun t => !(hasAnyPre t (keys.map (fun k2 => k2 ++ KEY_VALUE_SEPARATOR)))))) := by
  unfold delete_key_values_from_file at h
  rcases hr : fsRead fs name with _ | c
  · rw [hr] at h; cases h
  · rw [hr] at h
    injection h with h
    exact ⟨c, rfl, h.symm⟩

/-- C5.  After a successful `delete(k)`, `get(k)` fails not-found (with
the empty-key payload `Store::get` produces), and the result of `get` on
every other key is exactly what it was before the delete: the delete only
rewrites `index.idx`, appends to `delete.del` and removes `k` from the
in-memory index, none of which the read path of another key consults. -/
theorem C5_delete_frame (s sd : StoreState) (k : Str)
    (h : Store.delete s k = (.ok (), sd)) :
    (Store.get sd k).1 = .error (.notFound []) ∧
    ∀ k2, k2 ≠ k → (Store.get sd k2).1 = (Store.get s k2).1 := by
  unfold Store.delete at h
  rcases hidx : lookupLast s.index k with _ | tk
  · simp only [hidx] at h; cases h
  · simp only [hidx] at h
    rcases hdel : delete_key_values_from_file s.fs INDEX_FILENAME [k] with _ | fs1
    · simp only [hdel] at h; cases h
    · simp only [hdel] at h
      rcases happ : fsAppendF fs1 DEL_FILENAME (tk ++ TOKEN_SEPARATOR) with _ | fs2
      · simp only [happ] at h; cases h
      · simp only [happ] at h
        injection h with h1 h2
        subst h2
        constructor
        · unfold Store.get
          simp only [lookupLast_alRemove_self]
        · intro k2 hk2
          unfold Store.get
          have hidx2 : lookupLast (alRemove s.index k) k2 = lookupLast s.index k2 :=
            lookupLast_alRemove_ne s.index k k2 hk2
          obtain ⟨c1, hr1, hfs1⟩ := delete_kvs_eq hdel
          obtain ⟨c2, hr2, hfs2⟩ := fsAppendF_eq happ
          have hfsagree : ∀ base, fsRead fs2 (Store.dataPath base) =
              fsRead s.fs (Store.dataPath base) := by
            intro base
            rw [hfs2, hfs1]
            unfold fsRead fsWrite
            rw [lookupLast_alInsert_ne _ DEL_FILENAME (Store.dataPath base) _
                (dataPath_ne_del base),
              lookupLast_alInsert_ne _ INDEX_FILENAME (Store.dataPath base) _
                (dataPath_ne_index base)]
          rcases hl2 : lookupLast s.index k2 with _ | tk2
          · simp only [hidx2, hl2]
          · have hcong := get_value_for_key_congr
              { s with fs := fs2, index := alRemove s.index k } s tk2
              rfl rfl rfl rfl (fun base => hfsagree base)
            rcases hga : Store.get_value_for_key
              { s with fs := fs2, index := alRemove s.index k } tk2 with ⟨r1, t1⟩
            rcases hgb : Store.get_value_for_key s tk2 with ⟨r2, t2⟩
            rw [hga, hgb] at hcong
            simp only at hcong
            subst hcong
            simp only [hidx2, hl2, hga, hgb]
            rcases r1 with e | v
            · rfl
            · rfl

/-- C5 witness: a two-key store where deleting `"a"` succeeds. -/
theorem C5_delete_frame_witness :
    (Store.get (Store.delete
      { index := [(str "a", str "5-a"), (str "b", str "6-b")],
        memtable := default, cache := Cache.new_empty, data_files := [],
        current_log_file := str "0",
        fs := [(INDEX_FILENAME, []), (DEL_FILENAME, [])],
        max_file_size_bytes := 99 } (str "a")).2 (str "a")).1 =
      .error (.notFound []) ∧
    (Store.get (Store.delete
      { index := [(str "a", str "5-a"), (str "b", str "6-b")],
        memtable := default, cache := Cache.new_empty, data_files := [],
        current_log_file := str "0",
        fs := [(INDEX_FILENAME, []), (DEL_FILENAME, [])],
        max_file_size_bytes := 99 } (str "a")).2 (str "b")).1 =
    (Store.get
      { index := [(str "a", str "5-a"), (str "b", str "6-b")],
        memtable := default, cache := Cache.new_empty, data_files := [],
        current_log_file := str "0",
        fs := [(INDEX_FILENAME, []), (DEL_FILENAME, [])],
        max_file_size_bytes := 99 } (str "b")).1 :=
  ⟨(C5_delete_frame
      { index := [(str "a", str "5-a"), (str "b", str "6-b")],
        memtable := default, cache := Cache.new_empty, data_files := [],
        current_log_file := str "0",
        fs := [(INDEX_FILENAME, []), (DEL_FILENAME, [])],
        max_file_size_bytes := 99 }
      (Store.delete
        { index := [(str "a", str "5-a"), (str "b", str "6-b")],
          memtable := default, cache := Cache.new_empty, data_files := [],
          current_log_file := str "0",
          fs := [(INDEX_FILENAME, []), (DEL_FILENAME, [])],
          max_file_size_bytes := 99 } (str "a")).2
      (str "a") (by decide)).1,
   (C5_delete_frame
      { index := [(str "a", str "5-a"), (str "b", str "6-b")],
        memtable := default, cache := Cache.new_empty, data_files := [],
        current_log_file := str "0",
        fs := [(INDEX_FILENAME, []), (DEL_FILENAME, [])],
        max_file_size_bytes := 99 }
      (Store.delete
        { index := [(str "a", str "5-a"), (str "b", str "6-b")],
          memtable := default, cache := Cache.new_empty, data_files := [],
          current_log_file := str "0",
          fs := [(INDEX_FILENAME, []), (DEL_FILENAME, [])],
          max_file_size_bytes := 99 } (str "a")).2
      (str "a") (by decide)).2 (str "b") (by decide)⟩


/-- A pattern starts any extension of itself. -/
theorem isPre_append_self : ∀ (p r : Str), isPre p (p ++ r) = true
  | [], _ => rfl
  | c :: p', r => by
    rw [List.cons_append]
    show ((c == c) && isPre p' (p' ++ r)) = true
    simp [isPre_append_self p' r]

/-- A matching pattern is no longer than the string. -/
theorem isPre_length_le : ∀ {p s : Str}, isPre p s = true → p.length ≤ s.length
  | [], _, _ => Nat.zero_le _
  | _ :: _, [], h => absurd h (by simp [isPre])
  | a :: p', b :: s', h => by
    have h' : ((a == b) && isPre p' s') = true := h
    rw [Bool.and_eq_true] at h'
    simpa [Nat.succ_le_succ_iff] using isPre_length_le h'.2

/-- A nonempty pattern never starts the empty string. -/
theorem isPre_nil_right {p : Str} (hp : p ≠ []) : isPre p [] = false := by
  cases p with
  | nil => exact absurd rfl hp
  | cons a p' => rfl

/-- A matching pattern is a prefix: the string decomposes. -/
theorem isPre_exists : ∀ {p s : Str}, isPre p s = true → ∃ r, s = p ++ r
  | [], s, _ => ⟨s, rfl⟩
  | a :: p', [], h => absurd h (by simp [isPre])
  | a :: p', b :: s', h => by
    have h' : ((a == b) && isPre p' s') = true := h
    rw [Bool.and_eq_true, beq_iff_eq] at h'
    obtain ⟨r, hr⟩ := isPre_exists h'.2
    exact ⟨r, by rw [h'.1, hr]; rfl⟩

/-- A match inside the left part survives extension on the right. -/
theorem isPre_extend {p x : Str} (h : isPre p x = true) (y : Str) :
    isPre p (x ++ y) = true := by
  obtain ⟨r, hr⟩ := isPre_exists h
  rw [hr, List.append_assoc]
  exact isPre_append_self p (r ++ y)

/-- A match that fits inside the left part of an append matches it
alone. -/
theorem isPre_of_append_le : ∀ {p x : Str} (y : Str),
    isPre p (x ++ y) = true → p.length ≤ x.length → isPre p x = true
  | [], _, _, _, _ => rfl
  | a :: p', [], y, h, hl => by simp at hl
  | a :: p', b :: x', y, h, hl => by
    have h' : ((a == b) && isPre p' (x' ++ y)) = true := h
    rw [Bool.and_eq_true] at h'
    show ((a == b) && isPre p' x') = true
    rw [Bool.and_eq_true]
    exact ⟨h'.1, isPre_of_append_le y h'.2 (by simpa [Nat.succ_le_succ_iff] using hl)⟩

/-- Peeling `a` off the front of a matched append shifts the pattern. -/
theorem isPre_drop : ∀ (a : Str) {p w : Str},
    isPre p (a ++ w) = true → isPre (p.drop a.length) w = true
  | [], p, w, h => by simpa using h
  | c :: a', [], w, _ => rfl
  | c :: a', d :: p', w, h => by
    have h' : ((d == c) && isPre p' (a' ++ w)) = true := h
    rw [Bool.and_eq_true] at h'
    simpa using isPre_drop a' h'.2

/-- Matched patterns agree with the string position by position. -/
theorem isPre_get : ∀ {p s : Str}, isPre p s = true →
    ∀ j, j < p.length → s.get? j = p.get? j
  | [], _, _, j, hj => by simp at hj
  | a :: p', [], h, _, _ => absurd h (by simp [isPre])
  | a :: p', b :: s', h, j, hj => by
    have h' : ((a == b) && isPre p' s') = true := h
    rw [Bool.and_eq_true, beq_iff_eq] at h'
    cases j with
    | zero => simp [h'.1]
    | succ j' => simpa using isPre_get h'.2 j' (by simpa [Nat.succ_lt_succ_iff] using hj)

/-- No-substring elimination: no suffix is matched anywhere. -/
theorem hasSub_false_elim {p s : Str} (hp : p ≠ []) (h : hasSub p s = false) :
    ∀ i, isPre p (s.drop i) = false := by
  intro i
  by_contra hne
  have ht : isPre p (s.drop i) = true := by
    cases hv : isPre p (s.drop i) with
    | false => exact absurd hv hne
    | true => rfl
  by_cases hi : i ≤ s.length
  · have : hasSub p s = true := by
      simp only [hasSub]
      rw [List.any_eq_true]
      exact ⟨i, List.mem_range.mpr (by omega), ht⟩
    rw [this] at h; cases h
  · have hd : s.drop i = [] := List.drop_eq_nil_of_le (by omega)
    rw [hd, isPre_nil_right hp] at ht; cases ht

/-- Substring introduction from any witness position. -/
theorem hasSub_intro {p s : Str} (i : Nat) (h : isPre p (s.drop i) = true) :
    hasSub p s = true := by
  by_cases hi : i ≤ s.length
  · simp only [hasSub]
    rw [List.any_eq_true]
    exact ⟨i, List.mem_range.mpr (by omega), h⟩
  · have hd : s.drop i = [] := List.drop_eq_nil_of_le (by omega)
    rw [hd] at h
    cases p with
    | nil =>
      simp only [hasSub]
      rw [List.any_eq_true]
      exact ⟨0, List.mem_range.mpr (by omega), rfl⟩
    | cons a p' => exact absurd h (by simp [isPre])

/-- Dropping the head cannot create a substring occurrence. -/
theorem hasSub_cons_false {p : Str} {c : Char} {s : Str}
    (h : hasSub p (c :: s) = false) : hasSub p s = false := by
  by_contra hne
  have ht : hasSub p s = true := by
    cases hv : hasSub p s with
    | false => exact absurd hv hne
    | true => rfl
  simp only [hasSub] at ht
  rw [List.any_eq_true] at ht
  obtain ⟨i, _, hpre⟩ := ht
  have : hasSub p (c :: s) = true := hasSub_intro (i + 1) (by simpa using hpre)
  rw [this] at h; cases h

/-- A pattern whose head occurs nowhere in the string is not a
substring. -/
theorem hasSub_head_false {p0 : Char} {pt s : Str} (h : ∀ c ∈ s, ¬ p0 = c) :
    hasSub (p0 :: pt) s = false := by
  by_contra hne
  have ht : hasSub (p0 :: pt) s = true := by
    cases hv : hasSub (p0 :: pt) s with
    | false => exact absurd hv hne
    | true => rfl
  simp only [hasSub] at ht
  rw [List.any_eq_true] at ht
  obtain ⟨i, _, hpre⟩ := ht
  cases hd : s.drop i with
  | nil => rw [hd, isPre_nil_right (by simp)] at hpre; cases hpre
  | cons c r =>
    rw [hd] at hpre
    have h' : ((p0 == c) && isPre pt r) = true := hpre
    rw [Bool.and_eq_true, beq_iff_eq] at h'
    have hc : c ∈ s := by
      have : c ∈ s.drop i := by rw [hd]; exact List.mem_cons_self c r
      exact List.drop_subset i s this
    exact h c hc h'.1

/-- Occurrence analysis over `x ++ m ++ y`: when the pattern occurs in
neither side part, its head char is absent from `m`, and `m`'s head char
is absent from the pattern, the concatenation has no occurrence either
(no occurrence can straddle a boundary). -/
theorem hasSub_append3 {p0 m0 : Char} {pt mt x y : Str}
    (hx : hasSub (p0 :: pt) x = false) (hy : hasSub (p0 :: pt) y = false)
    (hA : p0 ∉ (m0 :: mt)) (hB : m0 ∉ (p0 :: pt)) :
    hasSub (p0 :: pt) (x ++ (m0 :: mt) ++ y) = false := by
  by_contra hne
  have ht : hasSub (p0 :: pt) (x ++ (m0 :: mt) ++ y) = true := by
    cases hv : hasSub (p0 :: pt) (x ++ (m0 :: mt) ++ y) with
    | false => exact absurd hv hne
    | true => rfl
  simp only [hasSub] at ht
  rw [List.any_eq_true] at ht
  obtain ⟨i, _, hpre⟩ := ht
  rw [List.append_assoc] at hpre
  by_cases hi1 : i < x.length
  · rw [List.drop_append_of_le_length (Nat.le_of_lt hi1)] at hpre
    by_cases hlen : (p0 :: pt).length ≤ (x.drop i).length
    · have hmx := isPre_of_append_le _ hpre hlen
      have : hasSub (p0 :: pt) x = true := hasSub_intro i hmx
      rw [this] at hx; cases hx
    · have hwl : (x.drop i).length < (p0 :: pt).length := Nat.lt_of_not_le hlen
      have hg := isPre_get hpre (x.drop i).length hwl
      rw [List.get?_append_right (Nat.le_refl _), Nat.sub_self] at hg
      have hm0 : ((m0 :: mt) ++ y).get? 0 = some m0 := rfl
      rw [hm0] at hg
      exact hB (List.get?_mem hg.symm)
  · have hi1' : x.length ≤ i := Nat.le_of_not_lt hi1
    have hieq : i = x.length + (i - x.length) := by omega
    rw [hieq, List.drop_append] at hpre
    set j := i - x.length with hj
    by_cases hj1 : j < (m0 :: mt).length
    · rw [List.drop_append_of_le_length (Nat.le_of_lt hj1)] at hpre
      have hmd : ((m0 :: mt).drop j) ≠ [] := by
        intro hmd
        have h1 : ((m0 :: mt).drop j).length = (m0 :: mt).length - j :=
          List.length_drop _ _
        rw [hmd] at h1
        simp only [List.length_nil] at h1
        omega
      have hg := isPre_get hpre 0 (by simp)
      have hg0 : (((m0 :: mt).drop j) ++ y).get? 0 = ((m0 :: mt).drop j).get? 0 := by
        apply List.get?_append
        cases hmm : (m0 :: mt).drop j with
        | nil => exact absurd hmm hmd
        | cons a r => simp
      rw [hg0, List.get?_drop] at hg
      have hp0 : (p0 :: pt).get? 0 = some p0 := rfl
      rw [hp0] at hg
      exact hA (List.get?_mem hg)
    · have hj1' : (m0 :: mt).length ≤ j := Nat.le_of_not_lt hj1
      have hjeq : j = (m0 :: mt).length + (j - (m0 :: mt).length) := by omega
      rw [hjeq, List.drop_append] at hpre
      have : hasSub (p0 :: pt) y = true := hasSub_intro _ hpre
      rw [this] at hy; cases hy

/-- Unfolding: the splitter on an empty remainder, any fuel. -/
theorem splitPosAux_nil (sep : Str) (f : Nat) (acc : Str) (pos : Nat) :
    splitPosAux sep f [] acc pos = [(acc.reverse, pos)] := by
  cases f <;> rfl

/-- Unfolding: the splitter on a cons cell with successor fuel. -/
theorem splitPosAux_cons (sep : Str) (f : Nat) (c : Char) (rest acc : Str)
    (pos : Nat) :
    splitPosAux sep (f + 1) (c :: rest) acc pos =
      if isPre sep (c :: rest) then
        (acc.reverse, pos) ::
          splitPosAux sep f (List.drop sep.length (c :: rest)) []
            (pos + acc.length + sep.length)
      else
        splitPosAux sep f rest (c :: acc) pos := rfl

/-- A nonempty separator never ends the empty string. -/
theorem endsWith_nil_false {sep : Str} (h : sep ≠ []) :
    endsWith sep [] = false := by
  have : sep.reverse ≠ [] := by
    intro hr
    exact h (by simpa using congrArg List.reverse hr)
  simpa [endsWith] using isPre_nil_right this

/-- One unit of surplus fuel is irrelevant to the splitter. -/
theorem splitPosAux_fuel_succ {sep : Str} (hsep : sep ≠ []) :
    ∀ (f : Nat) (s acc : Str) (pos : Nat), s.length ≤ f →
      splitPosAux sep (f + 1) s acc pos = splitPosAux sep f s acc pos := by
  intro f
  induction f with
  | zero =>
    intro s acc pos hf
    have : s = [] := List.eq_nil_of_length_eq_zero (Nat.le_zero.mp hf)
    subst this
    rw [splitPosAux_nil, splitPosAux_nil]
  | succ f ih =>
    intro s acc pos hf
    cases s with
    | nil => rw [splitPosAux_nil, splitPosAux_nil]
    | cons c rest =>
      have hrest : rest.length ≤ f := by
        have := hf; simp only [List.length_cons] at this; omega
      have hL : 1 ≤ sep.length := List.length_pos.mpr hsep
      rw [splitPosAux_cons, splitPosAux_cons]
      by_cases hc : isPre sep (c :: rest) = true
      · rw [if_pos hc, if_pos hc]
        have hdl : (List.drop sep.length (c :: rest)).length ≤ f := by
          rw [List.length_drop]
          simp only [List.length_cons]
          omega
        rw [ih _ _ _ hdl]
      · rw [if_neg (by simpa using hc), if_neg (by simpa using hc)]
        exact ih _ _ _ hrest

/-- Any sufficient fuel computes the same splitter result as the
canonical fuel. -/
theorem splitPosAux_fuel_ge {sep : Str} (hsep : sep ≠ []) :
    ∀ (f : Nat) (s acc : Str) (pos : Nat), s.length ≤ f →
      splitPosAux sep f s acc pos = splitPosAux sep s.length s acc pos := by
  intro f
  induction f with
  | zero =>
    intro s acc pos hf
    have : s = [] := List.eq_nil_of_length_eq_zero (Nat.le_zero.mp hf)
    subst this
    rfl
  | succ f ih =>
    intro s acc pos hf
    by_cases h : s.length = f + 1
    · rw [h]
    · have hle : s.length ≤ f := by omega
      rw [splitPosAux_fuel_succ hsep f s acc pos hle]
      exact ih s acc pos hle

/-- Unfolding: the trimmer with successor fuel. -/
theorem trimEndAux_succ (sep : Str) (f : Nat) (s : Str) :
    trimEndAux sep (f + 1) s =
      if sep ≠ [] && endsWith sep s then
        trimEndAux sep f (s.take (s.length - sep.length))
      else s := rfl

/-- One unit of surplus fuel is irrelevant to the trimmer. -/
theorem trimEndAux_fuel_succ {sep : Str} (hsep : sep ≠ []) :
    ∀ (f : Nat) (s : Str), s.length ≤ f →
      trimEndAux sep (f + 1) s = trimEndAux sep f s := by
  intro f
  induction f with
  | zero =>
    intro s hf
    have : s = [] := List.eq_nil_of_length_eq_zero (Nat.le_zero.mp hf)
    subst this
    rw [trimEndAux_succ, endsWith_nil_false hsep]
    simp [trimEndAux]
  | succ f ih =>
    intro s hf
    have hL : 1 ≤ sep.length := List.length_pos.mpr hsep
    rw [trimEndAux_succ sep (f + 1) s, trimEndAux_succ sep f s]
    by_cases hc : (decide (sep ≠ []) && endsWith sep s) = true
    · rw [if_pos hc, if_pos hc]
      apply ih
      rw [List.length_take]
      omega
    · rw [if_neg (by simpa using hc), if_neg (by simpa using hc)]

/-- Any sufficient fuel computes the same trimmer result as the canonical
fuel. -/
theorem trimEndAux_fuel_ge {sep : Str} (hsep : sep ≠ []) :
    ∀ (f : Nat) (s : Str), s.length ≤ f →
      trimEndAux sep f s = trimEndAux sep s.length s := by
  intro f
  induction f with
  | zero =>
    intro s hf
    have : s = [] := List.eq_nil_of_length_eq_zero (Nat.le_zero.mp hf)
    subst this
    rfl
  | succ f ih =>
    intro s hf
    by_cases h : s.length = f + 1
    · rw [h]
    · have hle : s.length ≤ f := by omega
      rw [trimEndAux_fuel_succ hsep f s hle]
      exact ih s hle

/-- Border-freeness elimination: no proper nonempty suffix of the
separator is a prefix of it. -/
theorem borderFree_elim {sep : Str} (h : borderFreeB sep = true) :
    ∀ j, 0 < j → j < sep.length → isPre (sep.drop j) sep = false := by
  intro j hj0 hjl
  simp only [borderFreeB] at h
  rw [List.all_eq_true] at h
  have := h j (List.mem_range.mpr hjl)
  rw [Bool.or_eq_true] at this
  rcases this with h1 | h2
  · rw [decide_eq_true_iff] at h1; omega
  · rw [Bool.not_eq_true'] at h2; exact h2

/-- No straddling match: a border-free separator cannot start
`a ++ sep ++ r` when the nonempty token `a` is separator-free. -/
theorem isPre_sep_straddle {sep : Str} (hsep : sep ≠ [])
    (hbf : borderFreeB sep = true) {a : Str} (ha : a ≠ [])
    (hfree : hasSub sep a = false) (r : Str) :
    isPre sep (a ++ sep ++ r) = false := by
  cases hv : isPre sep (a ++ sep ++ r) with
  | false => rfl
  | true =>
    exfalso
    have ht : isPre sep (a ++ (sep ++ r)) = true := by
      rw [← List.append_assoc]; exact hv
    by_cases hl : sep.length ≤ a.length
    · have h1 : isPre sep a = true := isPre_of_append_le _ ht hl
      have h2 : hasSub sep a = true := hasSub_intro 0 (by simpa using h1)
      rw [h2] at hfree; cases hfree
    · have h2 := isPre_drop a ht
      have h3 : isPre (sep.drop a.length) sep = true :=
        isPre_of_append_le r h2 (by rw [List.length_drop]; omega)
      have h4 := borderFree_elim hbf a.length (List.length_pos.mpr ha) (by omega)
      rw [h4] at h3; cases h3

/-- The splitter consumes one separator-free token followed by one
separator, emitting the token and continuing on the remainder. -/
theorem splitPosAux_token {sep : Str} (hsep : sep ≠ [])
    (hbf : borderFreeB sep = true) :
    ∀ (a : Str), hasSub sep a = false →
      ∀ (r acc : Str) (pos : Nat),
        splitPosAux sep (a ++ sep ++ r).length (a ++ sep ++ r) acc pos =
          (acc.reverse ++ a, pos) ::
            splitPosAux sep r.length r []
              (pos + acc.length + a.length + sep.length) := by
  intro a
  induction a with
  | nil =>
    intro _ r acc pos
    obtain ⟨s0, sep', rfl⟩ : ∃ s0 sep', sep = s0 :: sep' := by
      cases sep with
      | nil => exact absurd rfl hsep
      | cons s0 sep' => exact ⟨s0, sep', rfl⟩
    simp only [List.nil_append, List.cons_append, List.length_cons]
    rw [splitPosAux_cons]
    rw [if_pos (by
      have := isPre_append_self (s0 :: sep') r
      rwa [List.cons_append] at this)]
    have hdrop : List.drop (s0 :: sep').length (s0 :: (sep' ++ r)) = r := by
      rw [← List.cons_append]; exact List.drop_left _ _
    rw [hdrop]
    rw [splitPosAux_fuel_ge hsep _ r [] _ (by simp)]
    simp

  | cons c a' ih =>
    intro hfree r acc pos
    have hfree' : hasSub sep a' = false := hasSub_cons_false hfree
    simp only [List.cons_append, List.length_cons]
    rw [splitPosAux_cons]
    rw [if_neg (by
      have := isPre_sep_straddle hsep hbf (show c :: a' ≠ [] by simp) hfree r
      simp only [List.cons_append, List.append_assoc] at this
      simp [this])]
    rw [ih hfree' r (c :: acc) pos]
    have harith : pos + (c :: acc).length + a'.length + sep.length
        = pos + acc.length + (c :: a').length + sep.length := by
      simp only [List.length_cons]
      omega
    rw [harith]
    simp [List.reverse_cons, List.append_assoc]

/-- The splitter on a separator-free final token emits just that token. -/
theorem splitPosAux_last {sep : Str} (hsep : sep ≠ []) :
    ∀ (a : Str), hasSub sep a = false → ∀ (acc : Str) (pos : Nat),
      splitPosAux sep a.length a acc pos = [(acc.reverse ++ a, pos)] := by
  intro a
  induction a with
  | nil =>
    intro _ acc pos
    rw [splitPosAux_nil]
    simp
  | cons c a' ih =>
    intro hfree acc pos
    simp only [List.length_cons]
    rw [splitPosAux_cons]
    rw [if_neg (by
      have := hasSub_false_elim hsep hfree 0
      rw [List.drop_zero] at this
      simp [this])]
    rw [ih (hasSub_cons_false hfree) (c :: acc) pos]
    simp

/-- The canonical token list of `tokensPos`. -/
theorem tokensPos_map_fst (sep : Str) :
    ∀ (L : List Str) (p : Nat), (tokensPos sep L p).map (fun q => q.1) = L := by
  intro L
  induction L with
  | nil => intro p; rfl
  | cons t r ih => intro p; simp [tokensPos, ih]

/-- Splitting an interleaved token string recovers exactly the tokens and
their byte positions. -/
theorem splitPosAux_interT {sep : Str} (hsep : sep ≠ [])
    (hbf : borderFreeB sep = true) :
    ∀ (L : List Str), L ≠ [] → (∀ t ∈ L, hasSub sep t = false) →
      ∀ pos, splitPosAux sep (interT sep L).length (interT sep L) [] pos =
        tokensPos sep L pos := by
  intro L
  induction L with
  | nil => intro h; exact absurd rfl h
  | cons t L' ih =>
    cases L' with
    | nil =>
      intro _ hfree pos
      rw [show interT sep [t] = t from rfl]
      rw [splitPosAux_last hsep t (hfree t (by simp)) [] pos]
      simp [tokensPos]
    | cons u L'' =>
      intro _ hfree pos
      rw [show interT sep (t :: u :: L'') = t ++ sep ++ interT sep (u :: L'')
        from rfl]
      rw [splitPosAux_token hsep hbf t (hfree t (by simp)) _ [] pos]
      rw [ih (by simp) (fun x hx => hfree x (List.mem_cons_of_mem t hx)) _]
      simp [tokensPos]

/-- `joinT`'s fold with a seeded accumulator. -/
theorem joinT_acc : ∀ (L : List Str) (a : Str),
    L.foldl (fun acc t => acc ++ t ++ TOKEN_SEPARATOR) a = a ++ joinT L := by
  intro L
  induction L with
  | nil => intro a; simp [joinT]
  | cons u L' ih =>
    intro a
    show L'.foldl _ (a ++ u ++ TOKEN_SEPARATOR) = _
    rw [ih]
    show _ = a ++ L'.foldl _ ([] ++ u ++ TOKEN_SEPARATOR)
    rw [ih]
    simp [List.append_assoc]

/-- Serializing one more token appends its body and a separator. -/
theorem joinT_append_single (L : List Str) (t : Str) :
    joinT (L ++ [t]) = joinT L ++ t ++ TOKEN_SEPARATOR := by
  show (L ++ [t]).foldl _ [] = _
  rw [List.foldl_append]
  rfl

/-- Appending a token to a nonempty interleaving. -/
theorem interT_append {sep : Str} :
    ∀ (M : List Str), M ≠ [] → ∀ t,
      interT sep (M ++ [t]) = interT sep M ++ sep ++ t := by
  intro M
  induction M with
  | nil => intro h; exact absurd rfl h
  | cons m M' ih =>
    intro _ t
    cases M' with
    | nil => rfl
    | cons u M'' =>
      show interT sep (m :: ((u :: M'') ++ [t])) = _
      rw [show interT sep (m :: ((u :: M'') ++ [t]))
          = m ++ sep ++ interT sep ((u :: M'') ++ [t]) by
        cases M'' <;> rfl]
      rw [ih (by simp) t]
      rw [show interT sep (m :: u :: M'') = m ++ sep ++ interT sep (u :: M'')
        from rfl]
      simp [List.append_assoc]

/-- The serialized form is the interleaving plus one trailing
separator. -/
theorem joinT_eq_interT : ∀ (L : List Str), L ≠ [] →
    joinT L = interT TOKEN_SEPARATOR L ++ TOKEN_SEPARATOR := by
  intro L
  induction L with
  | nil => intro h; exact absurd rfl h
  | cons t L' ih =>
    intro _
    cases L' with
    | nil =>
      show ([t] : List Str).foldl _ [] = _
      simp [interT]
    | cons u L'' =>
      show (u :: L'').foldl _ ([] ++ t ++ TOKEN_SEPARATOR) = _
      rw [joinT_acc]
      rw [ih (by simp)]
      rw [show interT TOKEN_SEPARATOR (t :: u :: L'')
          = t ++ TOKEN_SEPARATOR ++ interT TOKEN_SEPARATOR (u :: L'')
        from rfl]
      simp [List.append_assoc]

/-- A trailing separator ends the string. -/
theorem endsWith_append_self {sep : Str} (y : Str) :
    endsWith sep (y ++ sep) = true := by
  simp only [endsWith, List.reverse_append]
  exact isPre_append_self sep.reverse y.reverse

/-- The trimmer strips one trailing separator. -/
theorem trimEnd_append_sep {sep : Str} (hsep : sep ≠ []) (y : Str) :
    trimEnd sep (y ++ sep) = trimEnd sep y := by
  have hL : 1 ≤ sep.length := List.length_pos.mpr hsep
  have hlen : (y ++ sep).length = y.length + sep.length := by simp
  obtain ⟨g, hg⟩ : ∃ g, (y ++ sep).length = g + 1 :=
    ⟨y.length + sep.length - 1, by rw [hlen]; omega⟩
  show trimEndAux sep (y ++ sep).length (y ++ sep) = _
  rw [hg, trimEndAux_succ]
  rw [if_pos (by simp [hsep, endsWith_append_self])]
  have hsub : (y ++ sep).length - sep.length = y.length := by rw [hlen]; omega
  rw [hsub, List.take_left]
  exact trimEndAux_fuel_ge hsep g y (by omega)

/-- A string that does not end with the separator is already trimmed. -/
theorem trimEnd_no_end {sep s : Str} (h : endsWith sep s = false) :
    trimEnd sep s = s := by
  show trimEndAux sep s.length s = s
  cases hs : s.length with
  | zero => rfl
  | succ g =>
    rw [trimEndAux_succ, h]
    simp

/-- A pattern that is a suffix is in particular a substring. -/
theorem suffix_hasSub {sep t : Str}
    (h : isPre sep.reverse t.reverse = true) : hasSub sep t = true := by
  obtain ⟨r, hr⟩ := isPre_exists h
  have ht : t = r.reverse ++ sep := by
    have := congrArg List.reverse hr
    simpa [List.reverse_append] using this
  apply hasSub_intro r.reverse.length
  rw [ht, List.drop_left]
  have := isPre_append_self sep []
  simpa using this

/-- A separator-free string does not end with the separator. -/
theorem endsWith_false_of_free {sep t : Str}
    (hfree : hasSub sep t = false) : endsWith sep t = false := by
  cases hv : endsWith sep t with
  | false => rfl
  | true =>
    have hv' : isPre sep.reverse t.reverse = true := hv
    rw [suffix_hasSub hv'] at hfree
    cases hfree

/-- A nonempty separator-free final token blocks any trailing-separator
match across the preceding separator (border-freeness excludes the
straddle). -/
theorem endsWith_false_mid {sep t : Str} (hsep : sep ≠ [])
    (hbf : borderFreeB sep = true) (htne : t ≠ [])
    (hfree : hasSub sep t = false) (w : Str) :
    endsWith sep (w ++ sep ++ t) = false := by
  cases hv : endsWith sep (w ++ sep ++ t) with
  | false => rfl
  | true =>
    exfalso
    have ht : isPre sep.reverse ((w ++ sep ++ t).reverse) = true := hv
    have hrev : (w ++ sep ++ t).reverse
        = t.reverse ++ (sep.reverse ++ w.reverse) := by
      simp [List.reverse_append, List.append_assoc]
    rw [hrev] at ht
    by_cases hl : sep.length ≤ t.length
    · have h1 : isPre sep.reverse t.reverse = true :=
        isPre_of_append_le _ ht (by simp [List.length_reverse]; omega)
      rw [suffix_hasSub h1] at hfree
      cases hfree
    · have h2 := isPre_drop t.reverse ht
      rw [List.length_reverse] at h2
      have h3 : isPre (sep.reverse.drop t.length) sep.reverse = true :=
        isPre_of_append_le _ h2
          (by rw [List.length_drop, List.length_reverse]; omega)
      obtain ⟨r2, h4⟩ := isPre_exists h3
      have hYlen : (sep.reverse.drop t.length).length = sep.length - t.length := by
        rw [List.length_drop, List.length_reverse]
      have hr2len : r2.length = t.length := by
        have := congrArg List.length h4
        rw [List.length_reverse, List.length_append, hYlen] at this
        omega
      have h5 : sep = r2.reverse ++ (sep.reverse.drop t.length).reverse := by
        have := congrArg List.reverse h4
        simpa [List.reverse_append] using this
      have h6 : sep.drop t.length = (sep.reverse.drop t.length).reverse := by
        calc sep.drop t.length
            = (r2.reverse ++ (sep.reverse.drop t.length).reverse).drop t.length := by
              rw [← h5]
          _ = (sep.reverse.drop t.length).reverse := by
              rw [← show r2.reverse.length = t.length from by
                rw [List.length_reverse]; exact hr2len]
              exact List.drop_left _ _
      have h8 : sep = (sep.reverse.drop t.length).reverse
          ++ (sep.reverse.take t.length).reverse := by
        have h9 : sep.reverse.take t.length ++ sep.reverse.drop t.length
            = sep.reverse := List.take_append_drop _ _
        have := congrArg List.reverse h9
        rw [List.reverse_append, List.reverse_reverse] at this
        exact this.symm
      have h7 : isPre (sep.drop t.length) sep = true := by
        rw [h6]
        nth_rewrite 2 [h8]
        exact isPre_append_self _ _
      have := borderFree_elim hbf t.length (List.length_pos.mpr htne) (by omega)
      rw [h7] at this
      cases this

/-- Appending a nonempty token leaves nothing to drop at the end. -/
theorem dropTrailEmp_append_nonempty (F : List Str) {t : Str} (ht : t ≠ []) :
    dropTrailEmp (F ++ [t]) = F ++ [t] := by
  simp only [dropTrailEmp, List.reverse_append, List.reverse_singleton,
    List.singleton_append, List.dropWhile_cons]
  rw [decide_eq_false ht]
  simp

/-- A trailing empty token is dropped. -/
theorem dropTrailEmp_append_nil (F : List Str) :
    dropTrailEmp (F ++ [([] : Str)]) = dropTrailEmp F := by
  simp only [dropTrailEmp, List.reverse_append, List.reverse_singleton,
    List.singleton_append, List.dropWhile_cons]
  simp

/-- Nothing is dropped from a list of nonempty tokens. -/
theorem dropTrailEmp_all_nonempty {F : List Str} (h : ∀ t ∈ F, t ≠ []) :
    dropTrailEmp F = F := by
  unfold dropTrailEmp
  cases hF : F.reverse with
  | nil =>
    have : F = [] := by
      have := congrArg List.reverse hF
      simpa using this
    simp [this, hF]
  | cons c r =>
    rw [List.dropWhile_cons]
    have hc : c ∈ F := by
      have : c ∈ F.reverse := by rw [hF]; exact List.mem_cons_self c r
      exact List.mem_reverse.mp this
    rw [decide_eq_false (h c hc)]
    simp only [Bool.false_eq_true, if_false]
    rw [← hF]
    simp

/-- Parsing a serialized token list recovers the tokens minus any
trailing empties. -/
theorem extract_tokens_joinT (F : List Str)
    (hfree : ∀ t ∈ F, hasSub TOKEN_SEPARATOR t = false) :
    extract_tokens_from_str (joinT F) = dropTrailEmp F := by
  have hsep : TOKEN_SEPARATOR ≠ [] := by decide
  have hbf : borderFreeB TOKEN_SEPARATOR = true := by decide
  induction F using List.reverseRecOn with
  | nil => rfl
  | append_singleton M t ih =>
    have hMfree : ∀ x ∈ M, hasSub TOKEN_SEPARATOR x = false :=
      fun x hx => hfree x (by simp [hx])
    have htfree : hasSub TOKEN_SEPARATOR t = false := hfree t (by simp)
    by_cases ht : t = []
    · subst ht
      rw [dropTrailEmp_append_nil, ← ih hMfree]
      rw [joinT_append_single, List.append_nil]
      simp only [extract_tokens_from_str]
      rw [trimEnd_append_sep hsep]
    · rw [joinT_append_single]
      by_cases hM : M = []
      · subst hM
        simp only [extract_tokens_from_str]
        rw [show joinT ([] : List Str) = [] from rfl, List.nil_append]
        rw [trimEnd_append_sep hsep, trimEnd_no_end (endsWith_false_of_free htfree)]
        rw [if_neg ht]
        have hsplit : splitOnStr TOKEN_SEPARATOR t = [t] := by
          simp only [splitOnStr, splitPos]
          rw [splitPosAux_last hsep t htfree [] 0]
          simp
        rw [hsplit, dropTrailEmp_append_nonempty [] ht]
        simp
      · simp only [extract_tokens_from_str]
        rw [trimEnd_append_sep hsep]
        rw [joinT_eq_interT M hM]
        rw [trimEnd_no_end (endsWith_false_mid hsep hbf ht htfree _)]
        have hint : interT TOKEN_SEPARATOR M ++ TOKEN_SEPARATOR ++ t
            = interT TOKEN_SEPARATOR (M ++ [t]) := (interT_append M hM t).symm
        rw [hint]
        rw [if_neg (by
          rw [← hint]
          simp [ht])]
        have hsplit : splitOnStr TOKEN_SEPARATOR (interT TOKEN_SEPARATOR (M ++ [t]))
            = M ++ [t] := by
          simp only [splitOnStr, splitPos]
          rw [splitPosAux_interT hsep hbf (M ++ [t]) (by simp)
            (by
              intro x hx
              rcases List.mem_append.mp hx with h1 | h2
              · exact hMfree x h1
              · rw [List.mem_singleton.mp h2]; exact htfree) 0]
          exact tokensPos_map_fst _ _ _
        rw [hsplit, dropTrailEmp_append_nonempty M ht]

/-- The accumulated token is separator-free when every accumulated
position failed to match. -/
theorem hasSub_acc_false {sep acc s : Str} (hsep : sep ≠ [])
    (inv : ∀ q, q < acc.length → isPre sep (acc.reverse.drop q ++ s) = false) :
    hasSub sep acc.reverse = false := by
  by_contra hne
  have ht : hasSub sep acc.reverse = true := by
    cases hv : hasSub sep acc.reverse with
    | false => exact absurd hv hne
    | true => rfl
  simp only [hasSub] at ht
  rw [List.any_eq_true] at ht
  obtain ⟨i, _, hpre⟩ := ht
  by_cases hi : i < acc.length
  · have hx := isPre_extend hpre s
    have := inv i hi
    rw [hx] at this
    cases this
  · have hd : acc.reverse.drop i = [] :=
      List.drop_eq_nil_of_le (by rw [List.length_reverse]; omega)
    rw [hd, isPre_nil_right hsep] at hpre
    cases hpre

/-- Every token the splitter emits is separator-free. -/
theorem splitPosAux_sep_free {sep : Str} (hsep : sep ≠ []) :
    ∀ (f : Nat) (s acc : Str) (pos : Nat), s.length ≤ f →
      (∀ q, q < acc.length → isPre sep (acc.reverse.drop q ++ s) = false) →
      ∀ t ∈ splitPosAux sep f s acc pos, hasSub sep t.1 = false := by
  intro f
  induction f with
  | zero =>
    intro s acc pos hf inv t ht
    have hs : s = [] := List.eq_nil_of_length_eq_zero (Nat.le_zero.mp hf)
    subst hs
    rw [splitPosAux_nil] at ht
    rw [List.mem_singleton.mp ht]
    exact hasSub_acc_false hsep inv
  | succ f ih =>
    intro s acc pos hf inv t ht
    cases s with
    | nil =>
      rw [splitPosAux_nil] at ht
      rw [List.mem_singleton.mp ht]
      exact hasSub_acc_false hsep inv
    | cons c rest =>
      have hL : 1 ≤ sep.length := List.length_pos.mpr hsep
      have hrest : rest.length ≤ f := by
        simp only [List.length_cons] at hf; omega
      rw [splitPosAux_cons] at ht
      by_cases hc : isPre sep (c :: rest) = true
      · rw [if_pos hc] at ht
        rcases List.mem_cons.mp ht with h1 | h2
        · rw [h1]
          exact hasSub_acc_false hsep inv
        · exact ih _ [] _ (by
            rw [List.length_drop]
            simp only [List.length_cons]
            omega) (by intro q hq; simp at hq) t h2
      · rw [if_neg (by simpa using hc)] at ht
        refine ih rest (c :: acc) pos hrest ?_ t ht
        intro q hq
        rw [List.reverse_cons]
        simp only [List.length_cons] at hq
        by_cases hq' : q < acc.length
        · rw [List.drop_append_of_le_length (by rw [List.length_reverse]; omega)]
          rw [List.append_assoc, List.singleton_append]
          exact inv q hq'
        · have hqe : q = acc.length := by omega
          have hqr : acc.reverse.length = q := by rw [List.length_reverse, hqe]
          rw [← hqr, List.drop_left, List.singleton_append]
          simpa using hc

/-- Every token `split` produces is separator-free. -/
theorem splitOnStr_sep_free {sep : Str} (hsep : sep ≠ []) (s : Str) :
    ∀ t ∈ splitOnStr sep s, hasSub sep t = false := by
  intro t ht
  simp only [splitOnStr, splitPos] at ht
  rw [List.mem_map] at ht
  obtain ⟨p, hp, hpt⟩ := ht
  rw [← hpt]
  exact splitPosAux_sep_free hsep s.length s [] 0 (Nat.le_refl _)
    (by intro q hq; simp at hq) p hp

/-- The tokens the splitter emits do not depend on the position
counter. -/
theorem splitPosAux_map_fst_pos (sep : Str) :
    ∀ (f : Nat) (s acc : Str) (pos1 pos2 : Nat),
      (splitPosAux sep f s acc pos1).map (fun p => p.1)
        = (splitPosAux sep f s acc pos2).map (fun p => p.1) := by
  intro f
  induction f with
  | zero =>
    intro s acc pos1 pos2
    cases s <;> rfl
  | succ f ih =>
    intro s acc pos1 pos2
    cases s with
    | nil => rfl
    | cons c rest =>
      rw [splitPosAux_cons, splitPosAux_cons]
      by_cases hc : isPre sep (c :: rest) = true
      · rw [if_pos hc, if_pos hc]
        simp only [List.map_cons]
        rw [ih]
      · rw [if_neg (by simpa using hc), if_neg (by simpa using hc)]
        exact ih _ _ _ _

/-- The empty token contributes no value for any key. -/
theorem tokVal_nil (k : Str) : tokVal [] k = none := rfl

/-- Right-to-left token search over an append. -/
theorem parseLookup_append (L1 L2 : List Str) (k : Str) :
    parseLookup (L1 ++ L2) k =
      match parseLookup L2 k with
      | some v => some v
      | none => parseLookup L1 k := by
  induction L1 with
  | nil =>
    simp only [List.nil_append]
    cases hp : parseLookup L2 k <;> simp [parseLookup]
  | cons t rest ih =>
    show parseLookup (t :: (rest ++ L2)) k = _
    simp only [parseLookup]
    rw [ih]
    cases hp : parseLookup L2 k <;> cases hr : parseLookup rest k <;> simp

/-- Trailing empty tokens do not change the token search. -/
theorem parseLookup_dropTrailEmp (F : List Str) (k : Str) :
    parseLookup (dropTrailEmp F) k = parseLookup F k := by
  induction F using List.reverseRecOn with
  | nil => rfl
  | append_singleton M t ih =>
    by_cases ht : t = []
    · subst ht
      rw [dropTrailEmp_append_nil, ih, parseLookup_append]
      simp [parseLookup, tokVal_nil]
    · rw [dropTrailEmp_append_nonempty M ht]

/-- Filtering away tokens that contribute nothing for a key does not
change the token search. -/
theorem parseLookup_filter (keep : Str → Bool) (k : Str) :
    ∀ (L : List Str), (∀ t ∈ L, keep t = false → tokVal t k = none) →
      parseLookup (L.filter keep) k = parseLookup L k := by
  intro L
  induction L with
  | nil => intro _; rfl
  | cons t rest ih =>
    intro h
    have hrest := fun x hx => h x (List.mem_cons_of_mem t hx)
    cases hk : keep t with
    | true =>
      rw [List.filter_cons_of_pos hk]
      simp only [parseLookup]
      rw [ih hrest]
    | false =>
      rw [List.filter_cons_of_neg (by simp [hk])]
      rw [ih hrest]
      simp only [parseLookup]
      rw [h t (List.mem_cons_self t rest) hk]
      cases hp : parseLookup rest k <;> simp

/-- Splitting a token that starts with a separator-free key and one
key-value separator yields that key first. -/
theorem splitOnStr_key_first {d : Str}
    (hd : hasSub KEY_VALUE_SEPARATOR d = false) (r : Str) :
    splitOnStr KEY_VALUE_SEPARATOR (d ++ KEY_VALUE_SEPARATOR ++ r)
      = d :: splitOnStr KEY_VALUE_SEPARATOR r := by
  have hkv : KEY_VALUE_SEPARATOR ≠ [] := by decide
  have hbf : borderFreeB KEY_VALUE_SEPARATOR = true := by decide
  simp only [splitOnStr, splitPos]
  rw [splitPosAux_token hkv hbf d hd r [] 0]
  simp only [List.map_cons, List.reverse_nil, List.nil_append]
  rw [splitPosAux_map_fst_pos KEY_VALUE_SEPARATOR r.length r []
    (0 + [].length + d.length + KEY_VALUE_SEPARATOR.length) 0]

/-- A token deleted by the compaction filter contributes nothing for any
timestamped key that is not tombstoned. -/
theorem tokVal_dropped {D : List Str} {t tk : Str}
    (hD : ∀ d ∈ D, hasSub KEY_VALUE_SEPARATOR d = false) (htk : tk ∉ D)
    (hdrop : hasAnyPre t (D.map (fun k => k ++ KEY_VALUE_SEPARATOR)) = true) :
    tokVal t tk = none := by
  simp only [hasAnyPre] at hdrop
  rw [List.any_eq_true] at hdrop
  obtain ⟨p, hp, hpre⟩ := hdrop
  rw [List.mem_map] at hp
  obtain ⟨d, hd, rfl⟩ := hp
  obtain ⟨r, hr⟩ := isPre_exists hpre
  have ht : t = d ++ KEY_VALUE_SEPARATOR ++ r := hr
  have hne : ¬ d = tk := fun hc => htk (hc ▸ hd)
  rw [ht]
  simp only [tokVal]
  rw [splitOnStr_key_first (hD d hd) r]
  cases hs : splitOnStr KEY_VALUE_SEPARATOR r with
  | nil => rfl
  | cons v w =>
    cases w with
    | nil => simp [hne]
    | cons v2 w2 => rfl

/-- The `reload_from_str` fold realizes the right-to-left token search. -/
theorem reload_fold_lookup (toks : List (Str × Nat)) :
    ∀ (base : CkyMap) (key : Str),
      lookupLast ((toks.foldl (fun acc p =>
        match splitOnStr KEY_VALUE_SEPARATOR p.1 with
        | [k, v] =>
          { acc with
              offsets := alInsert acc.offsets k p.2,
              inner_map := alInsert acc.inner_map k v }
        | _ => acc) base).inner_map) key =
      match parseLookup (toks.map (fun p => p.1)) key with
      | some v => some v
      | none => lookupLast base.inner_map key := by
  induction toks with
  | nil =>
    intro base key
    simp [parseLookup]
  | cons p rest ih =>
    intro base key
    rw [List.foldl_cons, ih]
    simp only [List.map_cons, parseLookup]
    cases hp : parseLookup (rest.map (fun p => p.1)) key with
    | some v => rfl
    | none =>
      simp only [tokVal]
      rcases hsplit : splitOnStr KEY_VALUE_SEPARATOR p.1 with _ | ⟨k2, _ | ⟨v, _ | ⟨w, ws⟩⟩⟩
      · simp only [hsplit]
      · simp only [hsplit]
      · simp only [hsplit]
        by_cases hk : k2 = key
        · subst hk
          rw [if_pos rfl]
          exact lookupLast_alInsert_self _ _ _
        · rw [if_neg hk]
          exact lookupLast_alInsert_ne _ _ _ _ (fun hc => hk hc.symm)
      · simp only [hsplit]

/-- The mapping a parsed container denotes is the right-to-left token
search over the extracted tokens. -/
theorem fromStr_lookup (c key : Str) :
    lookupLast (CkyMap.fromStr c).inner_map key
      = parseLookup (extract_tokens_from_str c) key := by
  simp only [CkyMap.fromStr, CkyMap.reload_from_str, extract_tokens_from_str]
  by_cases htr : trimEnd TOKEN_SEPARATOR c = []
  · rw [if_pos htr, if_pos htr]
    rfl
  · rw [if_neg htr, if_neg htr]
    rw [reload_fold_lookup]
    cases hp : parseLookup (splitOnStr TOKEN_SEPARATOR
        (trimEnd TOKEN_SEPARATOR c)) key with
    | some v =>
      have : (splitPos TOKEN_SEPARATOR (trimEnd TOKEN_SEPARATOR c)).map
          (fun p => p.1) = splitOnStr TOKEN_SEPARATOR (trimEnd TOKEN_SEPARATOR c) := rfl
      rw [this, hp]
    | none =>
      have : (splitPos TOKEN_SEPARATOR (trimEnd TOKEN_SEPARATOR c)).map
          (fun p => p.1) = splitOnStr TOKEN_SEPARATOR (trimEnd TOKEN_SEPARATOR c) := rfl
      rw [this, hp]
      rfl

/-- Every extracted token is token-separator-free. -/
theorem extract_tokens_sep_free (c : Str) :
    ∀ t ∈ extract_tokens_from_str c, hasSub TOKEN_SEPARATOR t = false := by
  intro t ht
  simp only [extract_tokens_from_str] at ht
  by_cases htr : trimEnd TOKEN_SEPARATOR c = []
  · rw [if_pos htr] at ht
    cases ht
  · rw [if_neg htr] at ht
    exact splitOnStr_sep_free (by decide) _ t ht

/-- Rewriting a file through the compaction filter preserves the parsed
mapping at every non-tombstoned key. -/
theorem fromStr_lookup_rewrite (D : List Str) (c tk : Str)
    (hD : ∀ d ∈ D, hasSub KEY_VALUE_SEPARATOR d = false) (htk : tk ∉ D) :
    lookupLast (CkyMap.fromStr (rewriteContent D c)).inner_map tk
      = lookupLast (CkyMap.fromStr c).inner_map tk := by
  rw [fromStr_lookup, fromStr_lookup]
  unfold rewriteContent
  have hFfree : ∀ t ∈ (extract_tokens_from_str c).filter
      (fun t => !(hasAnyPre t (D.map (fun k => k ++ KEY_VALUE_SEPARATOR)))),
      hasSub TOKEN_SEPARATOR t = false := by
    intro t htF
    exact extract_tokens_sep_free c t (List.mem_of_mem_filter htF)
  rw [extract_tokens_joinT _ hFfree, parseLookup_dropTrailEmp]
  apply parseLookup_filter
  intro t _ hkeep
  have : hasAnyPre t (D.map (fun k => k ++ KEY_VALUE_SEPARATOR)) = true := by
    cases hv : hasAnyPre t (D.map (fun k => k ++ KEY_VALUE_SEPARATOR)) with
    | true => rfl
    | false => rw [hv] at hkeep; cases hkeep
  exact tokVal_dropped hD htk this

/-- A missing key looks up to nothing. -/
theorem lookupLast_eq_none_of_not_mem {α : Type} {l : List (Str × α)} {k : Str}
    (h : k ∉ l.map (fun p => p.1)) : lookupLast l k = none := by
  induction l with
  | nil => rfl
  | cons q rest ih =>
    simp only [List.map_cons, List.mem_cons] at h
    push_neg at h
    rw [lookupLast_cons, ih h.2]
    rw [if_neg (fun hc => h.1 hc.symm)]

/-- Inserting a fresh key appends its binding. -/
theorem alInsert_of_not_mem {α : Type} {l : List (Str × α)} {k : Str} (v : α)
    (h : k ∉ l.map (fun p => p.1)) : alInsert l k v = l ++ [(k, v)] := by
  unfold alInsert
  congr 1
  apply List.filter_eq_self.mpr
  intro p hp
  have : p.1 ≠ k := by
    intro hc
    exact h (by rw [← hc]; exact List.mem_map_of_mem (fun q => q.1) hp)
  simp [this]

/-- Serializing one more token on the front. -/
theorem joinT_cons (u : Str) (L : List Str) :
    joinT (u :: L) = u ++ TOKEN_SEPARATOR ++ joinT L := by
  show L.foldl _ ([] ++ u ++ TOKEN_SEPARATOR) = _
  rw [joinT_acc]
  simp [List.append_assoc]

/-- The canonical positions of one more trailing token. -/
theorem tokensPos_append (L : List Str) (t : Str) :
    ∀ p, tokensPos TOKEN_SEPARATOR (L ++ [t]) p
      = tokensPos TOKEN_SEPARATOR L p ++ [(t, p + (joinT L).length)] := by
  induction L with
  | nil => intro p; simp [tokensPos, joinT]
  | cons u L' ih =>
    intro p
    show (u, p) :: tokensPos TOKEN_SEPARATOR (L' ++ [t])
        (p + u.length + TOKEN_SEPARATOR.length)
      = ((u, p) :: tokensPos TOKEN_SEPARATOR L'
        (p + u.length + TOKEN_SEPARATOR.length))
          ++ [(t, p + (joinT (u :: L')).length)]
    rw [ih, List.cons_append]
    have harith : p + (joinT (u :: L')).length
        = p + u.length + TOKEN_SEPARATOR.length + (joinT L').length := by
      rw [joinT_cons]
      simp only [List.length_append]
      omega
    rw [harith]

/-- The ordered-flavor container a push sequence builds, in closed
form. -/
theorem buildCkyVector_eq (vals : List Str) :
    buildCkyVector vals =
      ⟨joinT vals, vals,
        (tokensPos TOKEN_SEPARATOR vals 0).map (fun p => p.2)⟩ := by
  induction vals using List.reverseRecOn with
  | nil => rfl
  | append_singleton M v ih =>
    have hstep : buildCkyVector (M ++ [v]) = (buildCkyVector M).push v := by
      unfold buildCkyVector
      rw [List.foldl_append]
      rfl
    rw [hstep, ih]
    simp only [CkyVector.push]
    rw [tokensPos_append M v 0, joinT_append_single]
    simp [List.append_assoc]

/-- The keys of the canonical offset table. -/
theorem mapOffs_map_fst : ∀ (L : List (Str × Str)) (pos : Nat),
    (mapOffs L pos).map (fun p => p.1) = L.map (fun p => p.1) := by
  intro L
  induction L with
  | nil => intro pos; rfl
  | cons p r ih => intro pos; simp [mapOffs, ih]

/-- The canonical offset table of one more trailing entry. -/
theorem mapOffs_append (L : List (Str × Str)) (q : Str × Str) :
    ∀ pos, mapOffs (L ++ [q]) pos
      = mapOffs L pos ++ [(q.1, pos + (joinT (L.map coreTok)).length)] := by
  induction L with
  | nil => intro pos; simp [mapOffs, joinT]
  | cons p r ih =>
    intro pos
    show (p.1, pos) :: mapOffs (r ++ [q])
        (pos + (coreTok p).length + TOKEN_SEPARATOR_LENGTH)
      = ((p.1, pos) :: mapOffs r
        (pos + (coreTok p).length + TOKEN_SEPARATOR_LENGTH))
          ++ [(q.1, pos + (joinT ((p :: r).map coreTok)).length)]
    rw [ih, List.cons_append]
    have harith : pos + (joinT ((p :: r).map coreTok)).length
        = pos + (coreTok p).length + TOKEN_SEPARATOR_LENGTH
            + (joinT (r.map coreTok)).length := by
      rw [List.map_cons, joinT_cons]
      have hL : TOKEN_SEPARATOR_LENGTH = TOKEN_SEPARATOR.length := rfl
      simp only [List.length_append, hL]
      omega
    rw [harith]

/-- The map-flavor container a fresh-key insert sequence builds, in
closed form. -/
theorem buildCkyMap_eq (pairs : List (Str × Str))
    (hk : (pairs.map (fun p => p.1)).Nodup) :
    buildCkyMap pairs =
      ⟨joinT (pairs.map coreTok), mapOffs pairs 0, pairs⟩ := by
  induction pairs using List.reverseRecOn with
  | nil => rfl
  | append_singleton M p ih =>
    have hsplit : (M.map (fun p => p.1)).Nodup ∧
        p.1 ∉ M.map (fun p => p.1) := by
      rw [List.map_append, List.nodup_append] at hk
      refine ⟨hk.1, fun hc => ?_⟩
      exact hk.2.2 hc (by simp)
    have hstep : buildCkyMap (M ++ [p]) = ((buildCkyMap M).insert p.1 p.2).2 := by
      unfold buildCkyMap
      rw [List.foldl_append]
      rfl
    rw [hstep, ih hsplit.1]
    show (CkyMap.insert _ p.1 p.2).2 = _
    simp only [CkyMap.insert]
    rw [lookupLast_eq_none_of_not_mem hsplit.2]
    rw [alInsert_of_not_mem p.2 hsplit.2]
    rw [alInsert_of_not_mem ((joinT (M.map coreTok)).length) (by
      rw [mapOffs_map_fst]; exact hsplit.2)]
    rw [mapOffs_append M p 0]
    rw [List.map_append]
    simp only [List.map_cons, List.map_nil]
    rw [joinT_append_single]
    have hcore : coreTok p = p.1 ++ KEY_VALUE_SEPARATOR ++ p.2 := rfl
    simp [hcore, List.append_assoc]

/-- Trimming a serialized list of nonempty separator-free tokens strips
exactly the final separator. -/
theorem trimEnd_joinT (L : List Str)
    (h : ∀ t ∈ L, t ≠ [] ∧ hasSub TOKEN_SEPARATOR t = false) :
    trimEnd TOKEN_SEPARATOR (joinT L) = interT TOKEN_SEPARATOR L := by
  have hsep : TOKEN_SEPARATOR ≠ [] := by decide
  have hbf : borderFreeB TOKEN_SEPARATOR = true := by decide
  induction L using List.reverseRecOn with
  | nil => rfl
  | append_singleton M t ih =>
    have hts := h t (by simp)
    rw [joinT_append_single, trimEnd_append_sep hsep]
    by_cases hM : M = []
    · subst hM
      simp only [joinT, List.foldl_nil, List.nil_append]
      rw [trimEnd_no_end (endsWith_false_of_free hts.2)]
      rfl
    · rw [joinT_eq_interT M hM]
      rw [trimEnd_no_end (endsWith_false_mid hsep hbf hts.1 hts.2 _)]
      exact (interT_append M hM t).symm

/-- A map entry's token body never contains the token separator when its
key and value are separator-free (the two separator constants share no
boundary characters). -/
theorem coreTok_sep_free {k v : Str}
    (hk1 : hasSub TOKEN_SEPARATOR k = false)
    (hv1 : hasSub TOKEN_SEPARATOR v = false) :
    hasSub TOKEN_SEPARATOR (coreTok (k, v)) = false := by
  have e1 : TOKEN_SEPARATOR = '$' :: str "%#@*&^&" := by decide
  have e2 : KEY_VALUE_SEPARATOR = '>' :: str "<?&(^#" := by decide
  have hcore : coreTok (k, v) = k ++ KEY_VALUE_SEPARATOR ++ v := rfl
  rw [hcore, e1, e2]
  rw [e1] at hk1 hv1
  exact hasSub_append3 hk1 hv1 (by decide) (by decide)

/-- A map entry's token body is never empty. -/
theorem coreTok_ne_nil (p : Str × Str) : coreTok p ≠ [] := by
  have h : KEY_VALUE_SEPARATOR ≠ [] := by decide
  simp [coreTok, h]

/-- Splitting a map entry's token body recovers its key and value. -/
theorem coreTok_split {k v : Str}
    (hk : hasSub KEY_VALUE_SEPARATOR k = false)
    (hv : hasSub KEY_VALUE_SEPARATOR v = false) :
    splitOnStr KEY_VALUE_SEPARATOR (coreTok (k, v)) = [k, v] := by
  have hcore : coreTok (k, v) = k ++ KEY_VALUE_SEPARATOR ++ v := rfl
  rw [hcore, splitOnStr_key_first hk v]
  have hsingle : splitOnStr KEY_VALUE_SEPARATOR v = [v] := by
    simp only [splitOnStr, splitPos]
    rw [splitPosAux_last (by decide) v hv [] 0]
    simp
  rw [hsingle]

/-- An interleaving of nonempty tokens is nonempty. -/
theorem interT_ne_nil {sep : Str} :
    ∀ {L : List Str}, L ≠ [] → (∀ t ∈ L, t ≠ []) → interT sep L ≠ [] := by
  intro L
  cases L with
  | nil => intro h; exact absurd rfl h
  | cons t r =>
    intro _ h
    cases r with
    | nil => exact h t (by simp)
    | cons u r' =>
      rw [show interT sep (t :: u :: r') = t ++ sep ++ interT sep (u :: r')
        from rfl]
      simp [h t (by simp)]

/-- The `reload_from_str` fold over canonical tokens of fresh-keyed
entries builds exactly the canonical tables. -/
theorem reload_fold_canonical :
    ∀ (pairs : List (Str × Str)) (pos : Nat) (off0 : List (Str × Nat))
      (im0 : List (Str × Str)) (C : Str),
      (pairs.map (fun p => p.1)).Nodup →
      (∀ p ∈ pairs, p.1 ∉ off0.map (fun z => z.1) ∧
        p.1 ∉ im0.map (fun z => z.1)) →
      (∀ p ∈ pairs, splitOnStr KEY_VALUE_SEPARATOR (coreTok p) = [p.1, p.2]) →
      (tokensPos TOKEN_SEPARATOR (pairs.map coreTok) pos).foldl
        (fun (acc : CkyMap) (p : Str × Nat) =>
        match splitOnStr KEY_VALUE_SEPARATOR p.1 with
        | [k, v] =>
          { acc with
              offsets := alInsert acc.offsets k p.2,
              inner_map := alInsert acc.inner_map k v }
        | _ => acc) (⟨C, off0, im0⟩ : CkyMap)
        = ⟨C, off0 ++ mapOffs pairs pos, im0 ++ pairs⟩ := by
  intro pairs
  induction pairs with
  | nil =>
    intro pos off0 im0 C _ _ _
    simp [mapOffs, tokensPos]
  | cons q rest ih =>
    intro pos off0 im0 C hnd hdisj hsplit
    rw [List.map_cons] at hnd
    have hndc := List.nodup_cons.mp hnd
    have hq := hdisj q (List.mem_cons_self q rest)
    simp only [List.map_cons, tokensPos, List.foldl_cons,
      hsplit q (List.mem_cons_self q rest),
      alInsert_of_not_mem pos hq.1, alInsert_of_not_mem q.2 hq.2,
      Prod.mk.eta]
    rw [ih _ _ _ C hndc.2 (by
        intro p hp
        have hd := hdisj p (List.mem_cons_of_mem q hp)
        have hne : p.1 ≠ q.1 := by
          intro hc
          exact hndc.1 (hc ▸ List.mem_map_of_mem (fun z => z.1) hp)
        constructor
        · rw [List.map_append]
          simp only [List.mem_append]
          rintro (h1 | h2)
          · exact hd.1 h1
          · simp at h2
            exact hne h2
        · rw [List.map_append]
          simp only [List.mem_append]
          rintro (h1 | h2)
          · exact hd.2 h1
          · simp at h2
            exact hne h2)
      (fun p hp => hsplit p (List.mem_cons_of_mem q hp))]
    have hL : TOKEN_SEPARATOR_LENGTH = TOKEN_SEPARATOR.length := rfl
    simp [mapOffs, hL, List.append_assoc]

/-- Parsing a canonically serialized map-flavor container yields the
canonical tables. -/
theorem reloadM_canonical (pairs : List (Str × Str))
    (hk : (pairs.map (fun p => p.1)).Nodup)
    (hfree : ∀ p ∈ pairs,
      hasSub KEY_VALUE_SEPARATOR p.1 = false ∧
      hasSub TOKEN_SEPARATOR p.1 = false ∧
      hasSub KEY_VALUE_SEPARATOR p.2 = false ∧
      hasSub TOKEN_SEPARATOR p.2 = false) :
    CkyMap.fromStr (joinT (pairs.map coreTok)) =
      ⟨joinT (pairs.map coreTok), mapOffs pairs 0, pairs⟩ := by
  by_cases hpe : pairs = []
  · subst hpe; rfl
  · have hcond : ∀ t ∈ pairs.map coreTok,
        t ≠ [] ∧ hasSub TOKEN_SEPARATOR t = false := by
      intro t ht
      rw [List.mem_map] at ht
      obtain ⟨p, hpmem, rfl⟩ := ht
      have hf := hfree p hpmem
      have hps : p = (p.1, p.2) := rfl
      exact ⟨coreTok_ne_nil p, by
        rw [hps]
        exact coreTok_sep_free hf.2.1 hf.2.2.2⟩
    have hmapne : pairs.map coreTok ≠ [] := by
      simp [List.map_eq_nil, hpe]
    simp only [CkyMap.fromStr, CkyMap.reload_from_str]
    rw [trimEnd_joinT _ (fun t ht => ⟨(hcond t ht).1, (hcond t ht).2⟩)]
    rw [if_neg (interT_ne_nil hmapne (fun t ht => (hcond t ht).1))]
    have hsp : splitPos TOKEN_SEPARATOR
        (interT TOKEN_SEPARATOR (pairs.map coreTok))
        = tokensPos TOKEN_SEPARATOR (pairs.map coreTok) 0 :=
      splitPosAux_interT (by decide) (by decide) _ hmapne
        (fun t ht => (hcond t ht).2) 0
    rw [hsp]
    rw [reload_fold_canonical pairs 0 [] [] _ hk (by simp)
      (fun p hp => by
        have hf := hfree p hp
        have hps : p = (p.1, p.2) := rfl
        rw [hps]
        exact coreTok_split hf.1 hf.2.2.1)]
    simp

/-- Parsing a canonically serialized ordered-flavor container yields the
original items and offsets. -/
theorem reloadV_canonical (vals : List Str)
    (hv : ∀ v ∈ vals, v ≠ [] ∧ hasSub TOKEN_SEPARATOR v = false) :
    CkyVector.fromStr (joinT vals) =
      ⟨joinT vals, vals,
        (tokensPos TOKEN_SEPARATOR vals 0).map (fun p => p.2)⟩ := by
  by_cases hve : vals = []
  · subst hve; rfl
  · simp only [CkyVector.fromStr, CkyVector.reload_from_str]
    rw [trimEnd_joinT _ hv]
    rw [if_neg (interT_ne_nil hve (fun t ht => (hv t ht).1))]
    have hsp : splitPos TOKEN_SEPARATOR (interT TOKEN_SEPARATOR vals)
        = tokensPos TOKEN_SEPARATOR vals 0 :=
      splitPosAux_interT (by decide) (by decide) _ hve
        (fun t ht => (hv t ht).2) 0
    rw [hsp]
    rw [tokensPos_map_fst]

/-- C9: reload(serialize) reproduces a tokenized container exactly — the
blob, the mapping (or item sequence), and the offset table — for
map-flavor containers built from empty by inserts of distinct new keys
with separator-free keys and values, and for ordered-flavor containers
built by pushes of nonempty separator-free values.  (As the counterexample
shows, the claim's full generality fails for updates that change an
existing value's length.) -/
theorem C9_reload_roundtrip (pairs : List (Str × Str)) (vals : List Str)
    (hkeys : (pairs.map (fun p => p.1)).Nodup)
    (hfree : ∀ p ∈ pairs,
      hasSub KEY_VALUE_SEPARATOR p.1 = false ∧
      hasSub TOKEN_SEPARATOR p.1 = false ∧
      hasSub KEY_VALUE_SEPARATOR p.2 = false ∧
      hasSub TOKEN_SEPARATOR p.2 = false)
    (hvals : ∀ v ∈ vals, v ≠ [] ∧ hasSub TOKEN_SEPARATOR v = false) :
    CkyMap.fromStr (CkyMap.toStr (buildCkyMap pairs)) = buildCkyMap pairs ∧
    CkyVector.fromStr (CkyVector.toStr (buildCkyVector vals))
      = buildCkyVector vals := by
  constructor
  · rw [buildCkyMap_eq pairs hkeys]
    show CkyMap.fromStr (joinT (pairs.map coreTok)) = _
    exact reloadM_canonical pairs hkeys hfree
  · rw [buildCkyVector_eq vals]
    show CkyVector.fromStr (joinT vals) = _
    exact reloadV_canonical vals hvals

/-- Witness for C9 on a concrete two-entry map and one-item vector. -/
theorem C9_reload_roundtrip_witness :
    (([(str "a", str "1"), (str "b", str "22")].map (fun p => p.1)).Nodup) ∧
    (CkyMap.fromStr (CkyMap.toStr
        (buildCkyMap [(str "a", str "1"), (str "b", str "22")]))
      = buildCkyMap [(str "a", str "1"), (str "b", str "22")] ∧
     CkyVector.fromStr (CkyVector.toStr (buildCkyVector [str "x"]))
      = buildCkyVector [str "x"]) :=
  ⟨by decide, C9_reload_roundtrip
    [(str "a", str "1"), (str "b", str "22")] [str "x"]
    (by decide) (by decide) (by decide)⟩

/-- A log file's name never collides with the tombstone file. -/
theorem logName_ne_del (base : Str) : base ++ str ".log" ≠ DEL_FILENAME := by
  intro h
  have h2 := congrArg List.getLast? h
  rw [List.getLast?_append_of_ne_nil base (show str ".log" ≠ [] by decide)] at h2
  exact absurd h2 (by decide)

/-- A log file's name never collides with the index file. -/
theorem logName_ne_index (base : Str) : base ++ str ".log" ≠ INDEX_FILENAME := by
  intro h
  have h2 := congrArg List.getLast? h
  rw [List.getLast?_append_of_ne_nil base (show str ".log" ≠ [] by decide)] at h2
  exact absurd h2 (by decide)

/-- Writing a file keeps directory entries unique. -/
theorem FsInv_alInsert {fs : Fs} (hf : FsInv fs) (n c : Str) :
    FsInv (alInsert fs n c) := by
  simp only [FsInv, alInsert] at hf ⊢
  rw [List.map_append, List.nodup_append]
  refine ⟨List.Nodup.sublist (List.Sublist.map _ (List.filter_sublist fs)) hf,
    by simp, ?_⟩
  intro a ha hb
  simp at hb
  rw [List.mem_map] at ha
  obtain ⟨p, hp, hpa⟩ := ha
  have := List.mem_filter.mp hp
  rw [Bool.not_eq_true', beq_eq_false_iff_ne] at this
  exact this.2 (hpa.trans hb)

/-- Removing a file keeps directory entries unique. -/
theorem FsInv_alRemove {fs : Fs} (hf : FsInv fs) (n : Str) :
    FsInv (alRemove fs n) := by
  simp only [FsInv, alRemove] at hf ⊢
  exact List.Nodup.sublist (List.Sublist.map _ (List.filter_sublist fs)) hf

/-- The frame relation is reflexive. -/
theorem StoreFrame_refl (s : StoreState) : StoreFrame s s := ⟨rfl, id, rfl⟩

/-- The frame relation composes. -/
theorem StoreFrame_trans {s1 s2 s3 : StoreState}
    (h12 : StoreFrame s1 s2) (h23 : StoreFrame s2 s3) : StoreFrame s1 s3 :=
  ⟨h23.1.trans h12.1, fun hf => h23.2.1 (h12.2.1 hf), h23.2.2.trans h12.2.2⟩

/-- Writing any non-tombstone file preserves the tombstone read. -/
theorem read_del_alInsert (fs : Fs) {n : Str} (c : Str)
    (h : n ≠ DEL_FILENAME) :
    fsRead (alInsert fs n c) DEL_FILENAME = fsRead fs DEL_FILENAME :=
  lookupLast_alInsert_ne fs n DEL_FILENAME c (Ne.symm h)

/-- Removing any non-tombstone file preserves the tombstone read. -/
theorem read_del_alRemove (fs : Fs) {n : Str} (h : n ≠ DEL_FILENAME) :
    fsRead (alRemove fs n) DEL_FILENAME = fsRead fs DEL_FILENAME :=
  lookupLast_alRemove_ne fs n DEL_FILENAME (Ne.symm h)

/-- `get_timestamped_key` only appends to the index file. -/
theorem frame_gtk (s : StoreState) (k ts : Str) :
    StoreFrame s (Store.get_timestamped_key s k ts).2 := by
  unfold Store.get_timestamped_key
  rcases hlook : lookupLast s.index k with _ | tk
  · rcases hir : fsRead s.fs INDEX_FILENAME with _ | ic
    · simp only [fsAppendF, hir, Option.map_none']
      exact StoreFrame_refl s
    · simp only [fsAppendF, hir, Option.map_some']
      exact ⟨read_del_alInsert s.fs _ (by decide),
        fun hf => FsInv_alInsert hf _ _, rfl⟩
  · exact StoreFrame_refl s

/-- `roll_log_file_if_too_big` touches only log and segment files. -/
theorem frame_roll (s : StoreState) (tsRoll : Str) :
    StoreFrame s (Store.roll_log_file_if_too_big s tsRoll).2 := by
  unfold Store.roll_log_file_if_too_big
  rcases hlr : fsRead s.fs (Store.logPath s) with _ | content
  · exact StoreFrame_refl s
  · by_cases hsz : s.max_file_size_bytes ≤ content.length
    · simp only [if_pos hsz]
      have hlogne : Store.logPath s ≠ DEL_FILENAME :=
        logName_ne_del s.current_log_file
      have hckyne : Store.dataPath s.current_log_file ≠ DEL_FILENAME :=
        dataPath_ne_del s.current_log_file
      have h1 : fsRead (fsRename s.fs (Store.logPath s)
          (Store.dataPath s.current_log_file)) DEL_FILENAME
          = fsRead s.fs DEL_FILENAME := by
        unfold fsRename
        rw [hlr]
        rw [read_del_alInsert _ _ hckyne, read_del_alRemove _ hlogne]
      have h2 : FsInv s.fs → FsInv (fsRename s.fs (Store.logPath s)
          (Store.dataPath s.current_log_file)) := by
        intro hf
        unfold fsRename
        rw [hlr]
        exact FsInv_alInsert (FsInv_alRemove hf _) _ _
      rcases hcr : fsRead (fsRename s.fs (Store.logPath s)
          (Store.dataPath s.current_log_file)) (tsRoll ++ str ".log") with _ | e
      · simp only [fsCreateIfAbsent, hcr]
        exact ⟨(read_del_alInsert _ _ (logName_ne_del tsRoll)).trans h1,
          fun hf => FsInv_alInsert (h2 hf) _ _, rfl⟩
      · simp only [fsCreateIfAbsent, hcr]
        exact ⟨h1, h2, rfl⟩
    · simp only [if_neg hsz]
      exact StoreFrame_refl s

/-- `save_key_value_pair_to_memtable` touches only the log and, through
the roll, segment files. -/
theorem frame_save_mem (s : StoreState) (tk v tsRoll : Str) (w : Bool) :
    StoreFrame s (Store.save_key_value_pair_to_memtable s tk v tsRoll w).2 := by
  unfold Store.save_key_value_pair_to_memtable
  rcases hins : s.memtable.insert tk v with e | mt
  · exact StoreFrame_refl s
  · cases w with
    | false => exact StoreFrame_refl s
    | true =>
      have hmid : StoreFrame s
          ({ index := s.index, memtable := mt, cache := s.cache,
             data_files := s.data_files,
             current_log_file := s.current_log_file,
             fs := fsWrite s.fs (s.current_log_file ++ str ".log") mt.kv_string,
             max_file_size_bytes := s.max_file_size_bytes } : StoreState) :=
        ⟨read_del_alInsert _ _ (logName_ne_del _),
          fun hf => FsInv_alInsert hf _ _, rfl⟩
      exact StoreFrame_trans hmid (frame_roll _ tsRoll)

/-- `persist_cache_to_disk` writes one segment file. -/
theorem frame_persist (s : StoreState) :
    StoreFrame s (Store.persist_cache_to_disk s) := by
  unfold Store.persist_cache_to_disk
  exact ⟨read_del_alInsert _ _ (dataPath_ne_del _),
    fun hf => FsInv_alInsert hf _ _, rfl⟩

/-- `save_key_value_pair_to_cache` writes one segment file. -/
theorem frame_save_cache (s : StoreState) (tk v : Str) :
    StoreFrame s (Store.save_key_value_pair_to_cache s tk v).2 := by
  unfold Store.save_key_value_pair_to_cache
  rcases hup : s.cache.update tk v with ⟨r, c1⟩
  cases r with
  | error e => exact ⟨rfl, id, rfl⟩
  | ok o =>
    have := frame_persist ({ s with cache := c1 } : StoreState)
    exact ⟨this.1, this.2.1, this.2.2⟩

/-- `load_cache_containing_key` only reads. -/
theorem frame_load_cache (s : StoreState) (key : Str) :
    StoreFrame s (Store.load_cache_containing_key s key).2 := by
  unfold Store.load_cache_containing_key
  split
  · exact StoreFrame_refl s
  · split
    · exact StoreFrame_refl s
    · exact ⟨rfl, id, rfl⟩

/-- `save_key_value_pair` composes the memtable and cache routes. -/
theorem frame_save_kvp (s : StoreState) (tk v tsRoll : Str) (w : Bool) :
    StoreFrame s (Store.save_key_value_pair s tk v tsRoll w).2 := by
  unfold Store.save_key_value_pair
  by_cases hroute : strLe s.current_log_file tk = true
  · rw [if_pos hroute]
    rcases hsm : Store.save_key_value_pair_to_memtable s tk v tsRoll w
      with ⟨r, s1⟩
    have hfr := frame_save_mem s tk v tsRoll w
    rw [hsm] at hfr
    cases r with
    | ok u => exact hfr
    | error e => exact hfr
  · rw [if_neg hroute]
    by_cases hcache : s.cache.is_in_range tk = true
    · rw [if_pos hcache]
      show StoreFrame s ((match s.cache.get tk with
        | Except.error e => ((Except.error e : Except CkyError Unit), s)
        | Except.ok old_value =>
          match Store.save_key_value_pair_to_cache s tk v with
          | (Except.ok _, s2) => ((Except.ok () : Except CkyError Unit), s2)
          | (Except.error _, s2) =>
            ((Except.error (CkyError.corrupted (some old_value))
              : Except CkyError Unit), s2)) : Except CkyError Unit × StoreState).2
      rcases hcg : s.cache.get tk with e | old
      · exact StoreFrame_refl s
      · rcases hsc : Store.save_key_value_pair_to_cache s tk v with ⟨r2, s2⟩
        have hfr := frame_save_cache s tk v
        rw [hsc] at hfr
        cases r2 <;> exact hfr
    · rw [if_neg hcache]
      show StoreFrame s ((match Store.load_cache_containing_key s tk with
        | (Except.error _, s1) =>
          ((Except.error (CkyError.corrupted none) : Except CkyError Unit), s1)
        | (Except.ok _, s1) =>
          match s1.cache.get tk with
          | Except.error e => ((Except.error e : Except CkyError Unit), s1)
          | Except.ok old_value =>
            match Store.save_key_value_pair_to_cache s1 tk v with
            | (Except.ok _, s2) => ((Except.ok () : Except CkyError Unit), s2)
            | (Except.error _, s2) =>
              ((Except.error (CkyError.corrupted (some old_value))
                : Except CkyError Unit), s2)) : Except CkyError Unit × StoreState).2
      rcases hlc : Store.load_cache_containing_key s tk with ⟨r1, s1⟩
      have hfr1 := frame_load_cache s tk
      rw [hlc] at hfr1
      cases r1 with
      | error e => exact hfr1
      | ok u =>
        show StoreFrame s ((match s1.cache.get tk with
          | Except.error e => ((Except.error e : Except CkyError Unit), s1)
          | Except.ok old_value =>
            match Store.save_key_value_pair_to_cache s1 tk v with
            | (Except.ok _, s2) => ((Except.ok () : Except CkyError Unit), s2)
            | (Except.error _, s2) =>
              ((Except.error (CkyError.corrupted (some old_value))
                : Except CkyError Unit), s2)) : Except CkyError Unit × StoreState).2
        rcases hcg : s1.cache.get tk with e | old
        · exact hfr1
        · rcases hsc : Store.save_key_value_pair_to_cache s1 tk v with ⟨r2, s2⟩
          have hfr2 := frame_save_cache s1 tk v
          rw [hsc] at hfr2
          cases r2 <;> exact StoreFrame_trans hfr1 hfr2

/-- `delete_key_value_pair_if_exists` touches only log and segment
files. -/
theorem frame_delete_kvp (s : StoreState) (key : Str) (w : Bool) :
    StoreFrame s (Store.delete_key_value_pair_if_exists s key w).2 := by
  unfold Store.delete_key_value_pair_if_exists
  by_cases hcache : s.cache.is_in_range key = true
  · rw [if_pos hcache]
    rcases hrm : s.cache.remove key with ⟨r, c1⟩
    cases r with
    | error e => exact ⟨rfl, id, rfl⟩
    | ok u =>
      have := frame_persist ({ s with cache := c1 } : StoreState)
      exact ⟨this.1, this.2.1, this.2.2⟩
  · rw [if_neg hcache]
    by_cases hroute : strLe s.current_log_file key = true
    · rw [if_pos hroute]
      rcases hdel : s.memtable.delete key with e | mt
      · exact StoreFrame_refl s
      · cases w with
        | false => exact StoreFrame_refl s
        | true =>
          exact ⟨read_del_alInsert _ _ (logName_ne_del _),
            fun hf => FsInv_alInsert hf _ _, rfl⟩
    · rw [if_neg hroute]
      exact StoreFrame_refl s

/-- Removing an absent key's timestamped key is a no-op. -/
theorem remove_tk_none {s : StoreState} {k : Str}
    (h : lookupLast s.index k = none) :
    Store.remove_timestamped_key_for_key_if_exists s k = (.ok (), s) := by
  unfold Store.remove_timestamped_key_for_key_if_exists
  rw [h]

/-- A character outside the digit range never occurs in a digit string. -/
theorem allDigits_no_char {ts : Str} (h : allDigitsB ts = true) {ch : Char}
    (hch : (decide ('0' ≤ ch) && decide (ch ≤ '9')) = false) :
    ∀ c ∈ ts, ¬ ch = c := by
  intro c hc hceq
  subst hceq
  simp only [allDigitsB] at h
  rw [List.all_eq_true] at h
  have := h ch hc
  rw [hch] at this
  cases this

/-- A digit string never contains the key-value separator. -/
theorem allDigits_kv_free {ts : Str} (h : allDigitsB ts = true) :
    hasSub KEY_VALUE_SEPARATOR ts = false := by
  have e2 : KEY_VALUE_SEPARATOR = '>' :: str "<?&(^#" := by decide
  rw [e2]
  exact hasSub_head_false (allDigits_no_char h (by decide))

/-- A digit string never contains the token separator. -/
theorem allDigits_tok_free {ts : Str} (h : allDigitsB ts = true) :
    hasSub TOKEN_SEPARATOR ts = false := by
  have e1 : TOKEN_SEPARATOR = '$' :: str "%#@*&^&" := by decide
  rw [e1]
  exact hasSub_head_false (allDigits_no_char h (by decide))

/-- A well-shaped timestamped key is nonempty and separator-free. -/
theorem tk_facts {ts k : Str} (hts : allDigitsB ts = true)
    (hkv : hasSub KEY_VALUE_SEPARATOR k = false)
    (htok : hasSub TOKEN_SEPARATOR k = false) :
    ts ++ '-' :: k ≠ [] ∧
    hasSub KEY_VALUE_SEPARATOR (ts ++ '-' :: k) = false ∧
    hasSub TOKEN_SEPARATOR (ts ++ '-' :: k) = false := by
  refine ⟨by simp, ?_, ?_⟩
  · have e2 : KEY_VALUE_SEPARATOR = '>' :: str "<?&(^#" := by decide
    rw [e2]
    have hts' : hasSub ('>' :: str "<?&(^#") ts = false := by
      rw [← e2]; exact allDigits_kv_free hts
    have hk' : hasSub ('>' :: str "<?&(^#") k = false := by
      rw [← e2]; exact hkv
    have h3 := @hasSub_append3 '>' '-' (str "<?&(^#") [] ts k hts' hk'
      (by decide) (by decide)
    simpa [List.append_assoc] using h3
  · have e1 : TOKEN_SEPARATOR = '$' :: str "%#@*&^&" := by decide
    rw [e1]
    have hts' : hasSub ('$' :: str "%#@*&^&") ts = false := by
      rw [← e1]; exact allDigits_tok_free hts
    have hk' : hasSub ('$' :: str "%#@*&^&") k = false := by
      rw [← e1]; exact htok
    have h3 := @hasSub_append3 '$' '-' (str "%#@*&^&") [] ts k hts' hk'
      (by decide) (by decide)
    simpa [List.append_assoc] using h3

/-- Every tombstone-shaped string inherits the timestamped-key facts. -/
theorem tsShaped_facts {T : List Str} {d : Str} (h : TsShaped T d) :
    d ≠ [] ∧ hasSub KEY_VALUE_SEPARATOR d = false ∧
    hasSub TOKEN_SEPARATOR d = false := by
  obtain ⟨ts, _, k, h1, _, h3, h4⟩ := h
  rw [h4]
  exact tk_facts h1 h3.1 h3.2

/-- Timestamped keys with digit timestamps decompose uniquely. -/
theorem tk_inj : ∀ {ts1 k1 ts2 k2 : Str},
    allDigitsB ts1 = true → allDigitsB ts2 = true →
    ts1 ++ '-' :: k1 = ts2 ++ '-' :: k2 → ts1 = ts2 ∧ k1 = k2 := by
  intro ts1
  induction ts1 with
  | nil =>
    intro k1 ts2 k2 _ h2 h
    cases ts2 with
    | nil =>
      rw [List.nil_append, List.nil_append] at h
      injection h with _ hk
      exact ⟨rfl, hk⟩
    | cons c2 ts2' =>
      rw [List.nil_append, List.cons_append] at h
      injection h with hc _
      have hd : (decide ('0' ≤ c2) && decide (c2 ≤ '9')) = true := by
        simp only [allDigitsB] at h2
        exact List.all_eq_true.mp h2 c2 (by simp)
      rw [← hc] at hd
      exact absurd hd (by decide)
  | cons c1 ts1' ih =>
    intro k1 ts2 k2 h1 h2 h
    cases ts2 with
    | nil =>
      rw [List.nil_append, List.cons_append] at h
      injection h with hc _
      have hd : (decide ('0' ≤ c1) && decide (c1 ≤ '9')) = true := by
        simp only [allDigitsB] at h1
        exact List.all_eq_true.mp h1 c1 (by simp)
      rw [hc] at hd
      exact absurd hd (by decide)
    | cons c2 ts2' =>
      rw [List.cons_append, List.cons_append] at h
      injection h with hc hrest
      simp only [allDigitsB, List.all_cons, Bool.and_eq_true] at h1 h2
      have ihr := ih h1.2 h2.2 hrest
      exact ⟨by rw [hc, ihr.1], ihr.2⟩

/-- Tombstone shapes are monotone in the consumed-timestamp list. -/
theorem TsShaped_mono {T T' : List Str} (hsub : ∀ x ∈ T, x ∈ T') {d : Str}
    (h : TsShaped T d) : TsShaped T' d := by
  obtain ⟨ts, hts, k, h1, h2, h3, h4⟩ := h
  exact ⟨ts, hsub ts hts, k, h1, h2, h3, h4⟩

/-- The compaction invariant is monotone in the consumed-timestamp
list. -/
theorem VacInv_mono {s : StoreState} {T T' : List Str}
    (hsub : ∀ x ∈ T, x ∈ T') (h : VacInv s T) : VacInv s T' := by
  obtain ⟨D, h1, h2, h3, h4, h5⟩ := h
  refine ⟨D, h1, fun d hd => TsShaped_mono hsub (h2 d hd), ?_, h4, h5⟩
  intro k tk hk
  obtain ⟨ts, hts, hd1, hd2, hd3, hd4⟩ := h3 k tk hk
  exact ⟨ts, hsub ts hts, hd1, hd2, hd3, hd4⟩

/-- `remove_timestamped_key_for_key_if_exists` rewrites only the index
file and either keeps or shrinks the in-memory index. -/
theorem remove_tk_frame (s : StoreState) (k : Str) :
    fsRead (Store.remove_timestamped_key_for_key_if_exists s k).2.fs
        DEL_FILENAME = fsRead s.fs DEL_FILENAME ∧
    (FsInv s.fs →
      FsInv (Store.remove_timestamped_key_for_key_if_exists s k).2.fs) ∧
    ((Store.remove_timestamped_key_for_key_if_exists s k).2.index = s.index ∨
     (Store.remove_timestamped_key_for_key_if_exists s k).2.index
        = alRemove s.index k) := by
  unfold Store.remove_timestamped_key_for_key_if_exists
  rcases hlook : lookupLast s.index k with _ | tk
  · exact ⟨rfl, id, Or.inl rfl⟩
  · rcases hir : fsRead s.fs INDEX_FILENAME with _ | ic
    · simp only [delete_key_values_from_file, hir, Option.map_none']
      exact ⟨trivial, id, Or.inr trivial⟩
    · simp only [delete_key_values_from_file, hir, Option.map_some']
      exact ⟨read_del_alInsert s.fs _ (by decide),
        fun hf => FsInv_alInsert hf _ _, Or.inr trivial⟩

/-- A frame-preserving step keeps the compaction invariant. -/
theorem VacInv_of_frame {s s2 : StoreState} {T : List Str}
    (hInv : VacInv s T) (hfr : StoreFrame s s2) : VacInv s2 T := by
  obtain ⟨D, hD1, hD2, hD3, hD4, hD5⟩ := hInv
  refine ⟨D, hfr.1.trans hD1, hD2, ?_, ?_, hfr.2.1 hD5⟩
  · intro k2 tk2 h2
    rw [hfr.2.2] at h2
    exact hD3 k2 tk2 h2
  · intro k2 tk2 h2
    rw [hfr.2.2] at h2
    exact hD4 k2 tk2 h2

/-- Registering a fresh key with a fresh timestamp keeps the compaction
invariant. -/
theorem VacInv_insert_new {s : StoreState} {T : List Str} (hInv : VacInv s T)
    {k ts : Str} (hk : goodKey k) (hts : allDigitsB ts = true)
    (htsne : ts ≠ []) (hfresh : ts ∉ T) :
    VacInv { s with index := alInsert s.index k (ts ++ '-' :: k) }
      (T ++ [ts]) := by
  obtain ⟨D, hD1, hD2, hD3, hD4, hD5⟩ := hInv
  refine ⟨D, hD1,
    fun d hd => TsShaped_mono (fun x hx => List.mem_append_left _ hx)
      (hD2 d hd), ?_, ?_, hD5⟩
  · intro k2 tk2 h2
    by_cases hk2 : k2 = k
    · subst hk2
      simp only [lookupLast_alInsert_self] at h2
      have heq := Option.some.inj h2
      exact ⟨ts, List.mem_append_right _ (by simp), hts, htsne,
        hk, heq.symm⟩
    · simp only [lookupLast_alInsert_ne _ _ _ _ hk2] at h2
      obtain ⟨ts', hts', a, b, c, d⟩ := hD3 k2 tk2 h2
      exact ⟨ts', List.mem_append_left _ hts', a, b, c, d⟩
  · intro k2 tk2 h2
    by_cases hk2 : k2 = k
    · subst hk2
      simp only [lookupLast_alInsert_self] at h2
      have heq := Option.some.inj h2
      intro hmem
      obtain ⟨ts', hts', k', hd1, _, _, hd4⟩ := hD2 tk2 hmem
      have hinj := tk_inj hts hd1 (heq.trans hd4)
      exact hfresh (by rw [hinj.1]; exact hts')
    · simp only [lookupLast_alInsert_ne _ _ _ _ hk2] at h2
      exact hD4 k2 tk2 h2

/-- `get_timestamped_key` on an indexed key returns it unchanged. -/
theorem gtk_existing {s : StoreState} {k tk : Str}
    (h : lookupLast s.index k = some tk) (ts : Str) :
    Store.get_timestamped_key s k ts = (.ok (tk, false), s) := by
  unfold Store.get_timestamped_key
  rw [h]

/-- `get_timestamped_key` on a fresh key with a missing index file fails
without changing the state. -/
theorem gtk_new_err {s : StoreState} {k : Str}
    (h : lookupLast s.index k = none) (ts : Str)
    (hir : fsRead s.fs INDEX_FILENAME = none) :
    Store.get_timestamped_key s k ts
      = (.error (str "index file missing"), s) := by
  unfold Store.get_timestamped_key
  rw [h]
  simp only [fsAppendF, hir, Option.map_none']

/-- `get_timestamped_key` on a fresh key mints and appends the
timestamped key. -/
theorem gtk_new_ok {s : StoreState} {k : Str}
    (h : lookupLast s.index k = none) (ts : Str) {ic : Str}
    (hir : fsRead s.fs INDEX_FILENAME = some ic) :
    Store.get_timestamped_key s k ts
      = (.ok (ts ++ '-' :: k, true),
         { s with
             fs := alInsert s.fs INDEX_FILENAME
               (ic ++ (k ++ KEY_VALUE_SEPARATOR ++ (ts ++ '-' :: k)
                 ++ TOKEN_SEPARATOR)) }) := by
  unfold Store.get_timestamped_key
  rw [h]
  simp only [fsAppendF, hir, Option.map_some']

/-- A successful or failed `set` with a fresh, well-formed timestamp
keeps the compaction invariant, consuming the timestamp. -/
theorem set_VacInv {s : StoreState} {T : List Str} (hInv : VacInv s T)
    {k : Str} (v : Str) {ts : Str} (tsRoll : Str) (hk : goodKey k)
    (hts : allDigitsB ts = true) (htsne : ts ≠ []) (hfresh : ts ∉ T) :
    VacInv (Store.set s k v ts tsRoll true).2 (T ++ [ts]) := by
  have hsubT : ∀ x ∈ T, x ∈ T ++ [ts] := fun x hx => List.mem_append_left _ hx
  rcases hlook : lookupLast s.index k with _ | tk0
  · rcases hir : fsRead s.fs INDEX_FILENAME with _ | ic
    · simp only [Store.set, gtk_new_err hlook ts hir, remove_tk_none hlook]
      exact VacInv_mono hsubT hInv
    · simp only [Store.set, gtk_new_ok hlook ts hir]
      set fsA := alInsert s.fs INDEX_FILENAME
        (ic ++ (k ++ KEY_VALUE_SEPARATOR ++ (ts ++ '-' :: k)
          ++ TOKEN_SEPARATOR)) with hfsA
      rcases hsave : Store.save_key_value_pair { s with fs := fsA }
          (ts ++ '-' :: k) v tsRoll true
        with ⟨res, s1⟩
      have hfr01 : StoreFrame s s1 := by
        have h0 : StoreFrame s ({ s with fs := fsA } : StoreState) := by
          rw [hfsA]
          exact ⟨read_del_alInsert s.fs _ (by decide),
            fun hf => FsInv_alInsert hf _ _, rfl⟩
        have h1 := frame_save_kvp ({ s with fs := fsA } : StoreState)
          (ts ++ '-' :: k) v tsRoll true
        rw [hsave] at h1
        exact StoreFrame_trans h0 h1
      cases res with
      | ok u =>
        have hInv1 : VacInv s1 T := VacInv_of_frame hInv hfr01
        exact VacInv_insert_new hInv1 hk hts htsne hfresh
      | error err =>
        have hlk1 : lookupLast (Store.delete_key_value_pair_if_exists s1
            (ts ++ '-' :: k) true).2.index k = none := by
          rw [(frame_delete_kvp s1 (ts ++ '-' :: k) true).2.2, hfr01.2.2]
          exact hlook
        show VacInv (Store.remove_timestamped_key_for_key_if_exists
          (Store.delete_key_value_pair_if_exists s1 (ts ++ '-' :: k) true).2
          k).2 (T ++ [ts])
        rw [remove_tk_none hlk1]
        exact VacInv_mono hsubT (VacInv_of_frame hInv
          (StoreFrame_trans hfr01 (frame_delete_kvp s1 (ts ++ '-' :: k) true)))
  · simp only [Store.set, gtk_existing hlook ts]
    rcases hsave : Store.save_key_value_pair s tk0 v tsRoll true with ⟨res, s1⟩
    have hfr : StoreFrame s s1 := by
      have h1 := frame_save_kvp s tk0 v tsRoll true
      rw [hsave] at h1
      exact h1
    cases res with
    | ok u => exact VacInv_mono hsubT (VacInv_of_frame hInv hfr)
    | error err =>
      show VacInv ((match err.get_data with
        | some old => ((Except.error err : Except CkyError Unit),
            (Store.save_key_value_pair s1 tk0 old tsRoll true).2)
        | none => ((Except.error err : Except CkyError Unit), s1))
          : Except CkyError Unit × StoreState).2 (T ++ [ts])
      rcases hgd : err.get_data with _ | old
      · exact VacInv_mono hsubT (VacInv_of_frame hInv hfr)
      · show VacInv (Store.save_key_value_pair s1 tk0 old tsRoll true).2
          (T ++ [ts])
        rcases hsave2 : Store.save_key_value_pair s1 tk0 old tsRoll true
          with ⟨res2, s2⟩
        have hfr2 : StoreFrame s s2 := by
          have h2 := frame_save_kvp s1 tk0 old tsRoll true
          rw [hsave2] at h2
          exact StoreFrame_trans hfr h2
        exact VacInv_mono hsubT (VacInv_of_frame hInv hfr2)

/-- A `delete` appends the removed timestamped key to the tombstone file
and keeps the compaction invariant. -/
theorem delete_VacInv {s : StoreState} {T : List Str} (hInv : VacInv s T)
    (k : Str) : VacInv (Store.delete s k).2 T := by
  obtain ⟨D, hD1, hD2, hD3, hD4, hD5⟩ := hInv
  unfold Store.delete
  rcases hlook : lookupLast s.index k with _ | tk
  · exact ⟨D, hD1, hD2, hD3, hD4, hD5⟩
  · rcases hir : fsRead s.fs INDEX_FILENAME with _ | ic
    · simp only [delete_key_values_from_file, hir, Option.map_none']
      exact ⟨D, hD1, hD2, hD3, hD4, hD5⟩
    · simp only [delete_key_values_from_file, hir, Option.map_some', fsAppendF,
        fsWrite]
      rw [read_del_alInsert s.fs _ (by decide), hD1]
      simp only [Option.map_some']
      refine ⟨D ++ [tk], ?_, ?_, ?_, ?_, ?_⟩
      · refine Eq.trans (lookupLast_alInsert_self _ _ _) ?_
        rw [joinT_append_single]
        simp [List.append_assoc]
      · intro d hd
        rcases List.mem_append.mp hd with h1 | h2
        · exact hD2 d h1
        · rw [List.mem_singleton.mp h2]
          obtain ⟨ts, hts, a, b, c, d⟩ := hD3 k tk hlook
          exact ⟨ts, hts, k, a, b, c, d⟩
      · intro k2 tk2 h2
        by_cases hk2 : k2 = k
        · subst hk2
          simp only [lookupLast_alRemove_self] at h2
          cases h2
        · simp only [lookupLast_alRemove_ne _ _ _ hk2] at h2
          exact hD3 k2 tk2 h2
      · intro k2 tk2 h2
        by_cases hk2 : k2 = k
        · subst hk2
          simp only [lookupLast_alRemove_self] at h2
          cases h2
        · simp only [lookupLast_alRemove_ne _ _ _ hk2] at h2
          intro hmem
          rcases List.mem_append.mp hmem with h3 | h4
          · exact hD4 k2 tk2 h2 h3
          · obtain ⟨ts2, _, a2, b2, c2, d2⟩ := hD3 k2 tk2 h2
            obtain ⟨ts1, _, a1, b1, c1, d1⟩ := hD3 k tk hlook
            rw [List.mem_singleton.mp h4] at d2
            have := tk_inj a1 a2 (d1.symm.trans d2)
            exact hk2 this.2.symm
      · exact FsInv_alInsert (FsInv_alInsert hD5 _ _) _ _

/-- The freshly loaded store satisfies the compaction invariant with no
consumed timestamps. -/
theorem init_VacInv (ts0 : Str) (maxB : Nat) :
    VacInv (Store.initState ts0 maxB) [] := by
  refine ⟨[], ?_, by simp, ?_, ?_, ?_⟩
  · show lookupLast [(INDEX_FILENAME, []), (DEL_FILENAME, []),
      (ts0 ++ str ".log", [])] DEL_FILENAME = some (joinT [])
    rw [lookupLast_cons, lookupLast_cons, lookupLast_cons]
    rw [show lookupLast ([] : List (Str × Str)) DEL_FILENAME = none from rfl]
    rw [if_neg (show ¬ (ts0 ++ str ".log", ([] : Str)).1 = DEL_FILENAME
      from logName_ne_del ts0)]
    simp [joinT]
  · intro k tk h
    exact Option.noConfusion h
  · intro k tk h
    exact Option.noConfusion h
  · show ([INDEX_FILENAME, DEL_FILENAME, ts0 ++ str ".log"] : List Str).Nodup
    refine List.Nodup.cons ?_ (List.Nodup.cons ?_ (List.nodup_singleton _))
    · intro hmem
      rcases List.mem_cons.mp hmem with h1 | h2
      · exact absurd h1 (by decide)
      · exact logName_ne_index ts0 (List.mem_singleton.mp h2).symm
    · intro hmem
      exact logName_ne_del ts0 (List.mem_singleton.mp hmem).symm

/-- Running any well-formed mutation sequence from a state satisfying the
compaction invariant lands in a state satisfying it, consuming the minted
timestamps. -/
theorem runDbOps_VacInv : ∀ (ops : List DbOp) (s : StoreState) (T : List Str),
    VacInv s T → (∀ op ∈ ops, goodOp op) → (T ++ allSetTs ops).Nodup →
    VacInv (runDbOps s ops) (T ++ allSetTs ops) := by
  intro ops
  induction ops with
  | nil =>
    intro s T hInv _ _
    simpa [runDbOps, allSetTs] using hInv
  | cons op rest ih =>
    intro s T hInv hgood hnd
    have hrest : ∀ o ∈ rest, goodOp o :=
      fun o ho => hgood o (List.mem_cons_of_mem _ ho)
    cases op with
    | setOp k v ts tsRoll =>
      have hop := hgood _ (List.mem_cons_self _ _)
      have hTeq : T ++ allSetTs (DbOp.setOp k v ts tsRoll :: rest)
          = (T ++ [ts]) ++ allSetTs rest := by
        simp [allSetTs, DbOp.tsParts, List.append_assoc]
      have hts_notin : ts ∉ T := by
        intro hmem
        have hnd2 : (T ++ (ts :: allSetTs rest)).Nodup := by
          have : allSetTs (DbOp.setOp k v ts tsRoll :: rest)
              = ts :: allSetTs rest := rfl
          rwa [this] at hnd
        exact (List.disjoint_of_nodup_append hnd2) hmem
          (List.mem_cons_self _ _)
      have hset := set_VacInv hInv v tsRoll hop.1 hop.2.1 hop.2.2 hts_notin
      have hihres := ih ((Store.set s k v ts tsRoll true).2) (T ++ [ts]) hset
        hrest (by rwa [hTeq] at hnd)
      rw [hTeq]
      exact hihres
    | delOp k =>
      have hdel := delete_VacInv hInv k
      have hTeq : T ++ allSetTs (DbOp.delOp k :: rest)
          = T ++ allSetTs rest := rfl
      rw [hTeq]
      rw [hTeq] at hnd
      exact ih ((Store.delete s k).2) T hdel hrest hnd

/-- A name among the directory entries has readable content. -/
theorem lookupLast_mem_keys {α : Type} {l : List (Str × α)} {n : Str}
    (h : n ∈ l.map (fun p => p.1)) : ∃ c, lookupLast l n = some c := by
  induction l with
  | nil => cases h
  | cons q rest ih =>
    simp only [List.map_cons, List.mem_cons] at h
    rcases hlr : lookupLast rest n with _ | c
    · rcases h with h1 | h2
      · exact ⟨q.2, by rw [lookupLast_cons, hlr, if_pos h1.symm]⟩
      · obtain ⟨c, hc⟩ := ih h2
        rw [hc] at hlr
        cases hlr
    · exact ⟨c, by rw [lookupLast_cons, hlr]⟩

/-- A readable name is among the directory entries. -/
theorem mem_keys_of_lookupLast {α : Type} {l : List (Str × α)} {n : Str} :
    ∀ {c : α}, lookupLast l n = some c → n ∈ l.map (fun p => p.1) := by
  induction l with
  | nil =>
    intro c h
    exact Option.noConfusion h
  | cons q rest ih =>
    intro c h
    rw [lookupLast_cons] at h
    rcases hlr : lookupLast rest n with _ | c2
    · rw [hlr] at h
      by_cases hq : q.1 = n
      · rw [List.map_cons, ← hq]
        exact List.mem_cons_self _ _
      · rw [if_neg hq] at h
        exact Option.noConfusion h
    · exact List.mem_cons_of_mem _ (ih hlr)

/-- The compaction file loop succeeds on distinct readable files and
rewrites exactly those files through the tombstone filter. -/
theorem vacuumFold_ok (keys : List Str) :
    ∀ (files : List Str) (fs : Fs), files.Nodup →
      (∀ n ∈ files, ∃ c, fsRead fs n = some c) →
      ∃ fs', Store.vacuumFilesFold keys fs files = (.ok (), fs') ∧
        (∀ n ∈ files, fsRead fs' n
          = (fsRead fs n).map (rewriteContent keys)) ∧
        (∀ n, n ∉ files → fsRead fs' n = fsRead fs n) ∧
        (FsInv fs → FsInv fs') := by
  intro files
  induction files with
  | nil =>
    intro fs _ _
    exact ⟨fs, rfl, by simp, fun n _ => rfl, id⟩
  | cons f rest ih =>
    intro fs hnd hex
    obtain ⟨c, hc⟩ := hex f (List.mem_cons_self f rest)
    have hnd' := List.nodup_cons.mp hnd
    have hdel : delete_key_values_from_file fs f keys
        = some (fsWrite fs f (rewriteContent keys c)) := by
      simp only [delete_key_values_from_file, hc, Option.map_some']
      rfl
    have hstep : Store.vacuumFilesFold keys fs (f :: rest)
        = Store.vacuumFilesFold keys (fsWrite fs f (rewriteContent keys c))
            rest := by
      show (match delete_key_values_from_file fs f keys with
        | none =>
          ((Except.error (str "segment read failed") : Except IoErr Unit), fs)
        | some fs1 => Store.vacuumFilesFold keys fs1 rest) = _
      rw [hdel]
    obtain ⟨fs', hfold, hin, hout, hinvp⟩ :=
      ih (fsWrite fs f (rewriteContent keys c)) hnd'.2 (by
        intro n hn
        obtain ⟨cn, hcn⟩ := hex n (List.mem_cons_of_mem f hn)
        have hne : n ≠ f := fun hc2 => hnd'.1 (hc2 ▸ hn)
        refine ⟨cn, ?_⟩
        show lookupLast (alInsert fs f _) n = some cn
        rw [lookupLast_alInsert_ne _ _ _ _ hne]
        exact hcn)
    refine ⟨fs', hstep.trans hfold, ?_, ?_, ?_⟩
    · intro n hn
      rcases List.mem_cons.mp hn with h1 | h2
      · subst h1
        rw [hout n hnd'.1]
        show lookupLast (alInsert fs n _) n = (fsRead fs n).map _
        rw [lookupLast_alInsert_self, hc]
        rfl
      · rw [hin n h2]
        have hne : n ≠ f := fun hc2 => hnd'.1 (hc2 ▸ h2)
        have : fsRead (fsWrite fs f (rewriteContent keys c)) n
            = fsRead fs n := lookupLast_alInsert_ne _ _ _ _ hne
        rw [this]
    · intro n hn
      have hnf : n ≠ f := fun hc2 => hn (hc2 ▸ List.mem_cons_self f rest)
      have hnr : n ∉ rest := fun hc2 => hn (List.mem_cons_of_mem f hc2)
      rw [hout n hnr]
      show lookupLast (alInsert fs f _) n = fsRead fs n
      exact lookupLast_alInsert_ne _ _ _ _ hnf
    · intro hf
      exact hinvp (FsInv_alInsert hf _ _)

/-- `load_cache_containing_key` when no segment is selected. -/
theorem lcck_none {s : StoreState} {tk : Str}
    (h : Store.get_timestamp_range_for_key s tk = none) :
    Store.load_cache_containing_key s tk
      = (.error (str "InvalidData: " ++ tk), s) := by
  unfold Store.load_cache_containing_key
  rw [h]

/-- `load_cache_containing_key` when the selected segment file is
missing. -/
theorem lcck_missing {s : StoreState} {tk a b : Str}
    (h1 : Store.get_timestamp_range_for_key s tk = some (a, b))
    (h2 : fsRead s.fs (Store.dataPath a) = none) :
    Store.load_cache_containing_key s tk
      = (.error (str "segment file missing: " ++ a), s) := by
  unfold Store.load_cache_containing_key
  simp only [h1, h2]

/-- `load_cache_containing_key` when the selected segment file is
readable. -/
theorem lcck_found {s : StoreState} {tk a b c : Str}
    (h1 : Store.get_timestamp_range_for_key s tk = some (a, b))
    (h2 : fsRead s.fs (Store.dataPath a) = some c) :
    Store.load_cache_containing_key s tk
      = (.ok (), { s with cache := Cache.new c a b }) := by
  unfold Store.load_cache_containing_key
  simp only [h1, h2]

/-- Value retrieval sees through the compaction rewrite: with every
segment file rewritten by the tombstone filter of `D` and the looked-up
timestamped key not tombstoned, the result value is unchanged. -/
theorem gvfk_rewrite {s : StoreState} {fs2 : Fs} {D : List Str} {tk : Str}
    (hD : ∀ d ∈ D, hasSub KEY_VALUE_SEPARATOR d = false) (htk : tk ∉ D)
    (hread : ∀ a : Str, fsRead fs2 (Store.dataPath a)
      = (fsRead s.fs (Store.dataPath a)).map (rewriteContent D)) :
    (Store.get_value_for_key { s with fs := fs2 } tk).1
      = (Store.get_value_for_key s tk).1 := by
  have e1 : ({ s with fs := fs2 } : StoreState).current_log_file
      = s.current_log_file := rfl
  unfold Store.get_value_for_key
  rw [e1]
  by_cases hroute : strLe s.current_log_file tk = true
  · rw [if_pos hroute, if_pos hroute]
  · rw [if_neg hroute, if_neg hroute]
    have e3 : ({ s with fs := fs2 } : StoreState).cache = s.cache := rfl
    rw [e3]
    by_cases hcache : s.cache.is_in_range tk = true
    · rw [if_pos hcache, if_pos hcache]
    · rw [if_neg hcache, if_neg hcache]
      rcases hrange : Store.get_timestamp_range_for_key s tk with _ | ⟨a, b⟩
      · rw [lcck_none (show Store.get_timestamp_range_for_key
            ({ s with fs := fs2 } : StoreState) tk = none from hrange)]
        rw [lcck_none hrange]
      · rcases hr : fsRead s.fs (Store.dataPath a) with _ | c
        · have hr2 : fsRead fs2 (Store.dataPath a) = none := by
            rw [hread a, hr]
            rfl
          rw [lcck_missing (show Store.get_timestamp_range_for_key
              ({ s with fs := fs2 } : StoreState) tk = some (a, b)
              from hrange)
            (show fsRead ({ s with fs := fs2 } : StoreState).fs
              (Store.dataPath a) = none from hr2)]
          rw [lcck_missing hrange hr]
        · have hr2 : fsRead fs2 (Store.dataPath a)
              = some (rewriteContent D c) := by
            rw [hread a, hr]
            rfl
          rw [lcck_found (show Store.get_timestamp_range_for_key
              ({ s with fs := fs2 } : StoreState) tk = some (a, b)
              from hrange)
            (show fsRead ({ s with fs := fs2 } : StoreState).fs
              (Store.dataPath a) = some (rewriteContent D c) from hr2)]
          rw [lcck_found hrange hr]
          show CkyMap.get (CkyMap.fromStr (rewriteContent D c)) tk
            = CkyMap.get (CkyMap.fromStr c) tk
          unfold CkyMap.get
          rw [fromStr_lookup_rewrite D c tk hD htk]

/-- One uncontended compaction cycle does not change any `get` result on
a state satisfying the compaction invariant. -/
theorem vacuum_get {s : StoreState} {T : List Str} (hInv : VacInv s T)
    (k : Str) : (Store.get (Store.vacuum s).2 k).1 = (Store.get s k).1 := by
  obtain ⟨D, hD1, hD2, hD3, hD4, hD5⟩ := hInv
  have hkeys : extract_tokens_from_str (joinT D) = D := by
    rw [extract_tokens_joinT D (fun t ht => (tsShaped_facts (hD2 t ht)).2.2)]
    exact dropTrailEmp_all_nonempty (fun t ht => (tsShaped_facts (hD2 t ht)).1)
  unfold Store.vacuum Store.unlocked_vacuum
  simp only [hD1, hkeys]
  by_cases hDnil : D = []
  · subst hDnil
    simp
  · have hlen : ¬ (D.length = 0) := by
      simpa [List.length_eq_zero] using hDnil
    rw [if_neg hlen]
    obtain ⟨fs', hfold, hin, hout, hinvp⟩ := vacuumFold_ok D
      ((s.fs.map (fun p => p.1)).filter
        (fun n => endsWith (str ".log") n || endsWith (str ".cky") n)) s.fs
      (List.Nodup.filter _
        (show (s.fs.map (fun p => p.1)).Nodup from hD5)) (by
        intro n hn
        exact lookupLast_mem_keys ((List.mem_filter.mp hn).1))
    simp only [hfold]
    show (Store.get { s with fs := fsWrite fs' DEL_FILENAME [] } k).1
      = (Store.get s k).1
    unfold Store.get
    have eidx : ({ s with fs := fsWrite fs' DEL_FILENAME [] }
        : StoreState).index = s.index := rfl
    rw [eidx]
    rcases hlk : lookupLast s.index k with _ | tk
    · rfl
    · have hreadall : ∀ a, fsRead (fsWrite fs' DEL_FILENAME [])
          (Store.dataPath a)
          = (fsRead s.fs (Store.dataPath a)).map (rewriteContent D) := by
        intro a
        have h1 : fsRead (fsWrite fs' DEL_FILENAME []) (Store.dataPath a)
            = fsRead fs' (Store.dataPath a) :=
          lookupLast_alInsert_ne _ _ _ _ (dataPath_ne_del a)
        rw [h1]
        by_cases hmem : Store.dataPath a ∈ (s.fs.map (fun p => p.1)).filter
            (fun n => endsWith (str ".log") n || endsWith (str ".cky") n)
        · exact hin _ hmem
        · rw [hout _ hmem]
          rcases hra : fsRead s.fs (Store.dataPath a) with _ | c
          · rfl
          · exfalso
            apply hmem
            rw [List.mem_filter]
            refine ⟨mem_keys_of_lookupLast hra, ?_⟩
            have h2 : endsWith (str ".cky") (Store.dataPath a) = true :=
              endsWith_append_self a
            rw [h2, Bool.or_true]
      have hcmp := gvfk_rewrite (fun d hd => (tsShaped_facts (hD2 d hd)).2.1)
        (hD4 k tk hlk) hreadall
      show (match Store.get_value_for_key
          { s with fs := fsWrite fs' DEL_FILENAME [] } tk with
        | (Except.ok v, s1) => ((Except.ok v : Except CkyError Str), s1)
        | (Except.error e, s1) =>
          ((Except.error (CkyError.corrupted
            (some (str "error getting value: " ++ e.display)))
            : Except CkyError Str), s1)).1
        = (match Store.get_value_for_key s tk with
        | (Except.ok v, s1) => ((Except.ok v : Except CkyError Str), s1)
        | (Except.error e, s1) =>
          ((Except.error (CkyError.corrupted
            (some (str "error getting value: " ++ e.display)))
            : Except CkyError Str), s1)).1
      rcases hg1 : Store.get_value_for_key
          { s with fs := fsWrite fs' DEL_FILENAME [] } tk with ⟨r1, s1⟩
      rcases hg2 : Store.get_value_for_key s tk with ⟨r2, s2⟩
      have hr12 : r1 = r2 := by
        have h3 := hcmp
        rw [hg1, hg2] at h3
        exact h3
      subst hr12
      cases r1 with
      | error e => rfl
      | ok v => rfl

/-- C8: for every engine state reached from a fresh store by a finite
sequence of well-formed `set`/`delete` mutations, one uncontended
compaction (vacuum) cycle leaves every `get` result unchanged — live keys
return the same value, deleted and unknown keys fail identically — and a
cycle that finds an empty tombstone file modifies nothing at all. -/
theorem C8_compaction_invisibility (ts0 : Str) (maxB : Nat) (ops : List DbOp)
    (hops : goodOps ops) :
    (∀ k, (Store.get (Store.vacuum
        (runDbOps (Store.initState ts0 maxB) ops)).2 k).1
      = (Store.get (runDbOps (Store.initState ts0 maxB) ops) k).1) ∧
    (∀ s2 : StoreState, fsRead s2.fs DEL_FILENAME = some [] →
      (Store.vacuum s2).2 = s2) := by
  constructor
  · intro k
    have hInv := runDbOps_VacInv ops (Store.initState ts0 maxB) []
      (init_VacInv ts0 maxB) hops.1 (by simpa using hops.2)
    exact vacuum_get hInv k
  · intro s2 h
    unfold Store.vacuum Store.unlocked_vacuum
    simp only [h]
    rfl

/-- Witness for C8: one `set` then a vacuum on a concrete store. -/
theorem C8_compaction_invisibility_witness :
    goodOps [DbOp.setOp (str "a") (str "1") (str "5") (str "90")] ∧
    (Store.get (Store.vacuum (runDbOps (Store.initState (str "0") 99)
        [DbOp.setOp (str "a") (str "1") (str "5") (str "90")])).2
        (str "a")).1
      = (Store.get (runDbOps (Store.initState (str "0") 99)
        [DbOp.setOp (str "a") (str "1") (str "5") (str "90")])
        (str "a")).1 :=
  ⟨by decide, (C8_compaction_invisibility (str "0") 99
    [DbOp.setOp (str "a") (str "1") (str "5") (str "90")]
    (by decide)).1 (str "a")⟩

end Ckydb
